import Mathlib

/-!
A line-oriented text editor: `Line` and `TextDocument`.

Memory-level embedding of `src/main.cpp`.

* A heap block `new char[n]` is a list of `n` cells; a cell that was never
  written is `none` (indeterminate), a written byte is `some c`.
* Every operation whose C++ behaviour is undefined (a read of an indeterminate
  byte by `strlen`/`strcpy`/`operator<<`, an access outside the block, a
  negative `int` passed as a `size_t` byte count) returns `none`.
* The `int` fields and parameters are `Int`; wrap-around of `int` is not
  modelled (it needs strings of about 2^31 bytes).
* A `const char *` argument is given by the characters before its terminator.
* The chain `head → … → tail → nullptr` is the list `lines`; `tail` is its
  last element and `head == nullptr` is the empty list.
-/

namespace Editor

/-- One byte of heap storage; `none` is a byte that was never written. -/
abbrev Cell := Option Char

/-- The string terminator. -/
def NUL : Char := Char.ofNat 0

def INITIAL_CAPACITY : Int := 10

def LINE_LENGTH : Nat := 64

/-! ## The C library on heap blocks -/

/-- The C string that starts at the beginning of `buf`: the characters before
the first terminator. Undefined when an indeterminate byte or the end of the
block is reached first. -/
def cstr : List Cell → Option (List Char)
  | [] => none
  | none :: _ => none
  | some c :: rest => if c = NUL then some [] else (cstr rest).map (c :: ·)

/-- The C string that a `char` array holding the characters `chars` and then
a terminator denotes: the characters before the first terminator. -/
def cstrOf (chars : List Char) : List Char := chars.takeWhile (fun ch => ch != NUL)

/-- The C string at `buf + off`. -/
def cstrAt (buf : List Cell) (off : Int) : Option (List Char) :=
  if 0 ≤ off then cstr (buf.drop off.toNat) else none

/-- Store `data` at `buf + off`; undefined when a byte falls outside the block. -/
def memWrite (buf : List Cell) (off : Int) (data : List Cell) : Option (List Cell) :=
  if 0 ≤ off ∧ off + data.length ≤ buf.length then
    some (buf.take off.toNat ++ data ++ buf.drop (off.toNat + data.length))
  else none

/-- The call `strcpy(buf + off, s)`: the characters of `s` and the terminator. -/
def strcpy (buf : List Cell) (off : Int) (s : List Char) : Option (List Cell) :=
  memWrite buf off (s.map some ++ [some NUL])

/-- The call `memcpy(buf + off, s, strlen(s))`: the characters of `s`, no terminator. -/
def memcpy (buf : List Cell) (off : Int) (s : List Char) : Option (List Cell) :=
  memWrite buf off (s.map some)

/-- The call `memmove(buf + dst, buf + src, n)` inside one block. The count is a
`size_t`: a negative `int` becomes a count larger than any block. -/
def memmove (buf : List Cell) (dst src n : Int) : Option (List Cell) :=
  if 0 ≤ n ∧ 0 ≤ src ∧ src + n ≤ buf.length then
    memWrite buf dst ((buf.drop src.toNat).take n.toNat)
  else none

/-! ## `struct Line` -/

/-- The fields `text`, `length`, `capacity`; `next` is the list structure of
the document. -/
structure Line where
  text : List Cell
  length : Int
  capacity : Int
deriving DecidableEq

namespace Line

/-- The constructor `Line()`: the block is allocated and left unwritten. -/
def new : Line :=
  { text := List.replicate INITIAL_CAPACITY.toNat none, length := 0, capacity := INITIAL_CAPACITY }

/-- What `operator<<(ostream&, char*)` and `strlen` see in `text`. -/
def content (l : Line) : Option (List Char) := cstr l.text

def ensureCapacity (l : Line) (minCapacity : Int) : Option Line :=
  if minCapacity > l.capacity then
    let capacity := minCapacity * 2
    let newText : List Cell := List.replicate capacity.toNat none
    -- strcpy(newText, text)
    match cstr l.text with
    | none => none
    | some c =>
      match strcpy newText 0 c with
      | none => none
      | some t => some { text := t, length := l.length, capacity := capacity }
  else some l

def append (l : Line) (str : List Char) : Option Line :=
  let str_len : Int := str.length
  match l.ensureCapacity (l.length + str_len + 1) with
  | none => none
  | some l1 =>
    match strcpy l1.text l1.length str with
    | none => none
    | some t => some { l1 with text := t, length := l1.length + str_len }

def insertSubstring (l : Line) (pos : Int) (substring : List Char) : Option Line :=
  let subLen : Int := substring.length
  match l.ensureCapacity (l.length + subLen + 1) with
  | none => none
  | some l1 =>
    match memmove l1.text (pos + subLen) pos (l1.length - pos + 1) with
    | none => none
    | some t1 =>
      match memcpy t1 pos substring with
      | none => none
      | some t2 => some { l1 with text := t2, length := l1.length + subLen }

def replaceSubstring (l : Line) (pos : Int) (replacement : List Char) : Option Line :=
  let repLen : Int := replacement.length
  let endPos : Int := if pos + repLen > l.length then l.length else pos + repLen
  match memcpy l.text pos replacement with
  | none => none
  | some t1 =>
    -- text[endPos] = 0
    match memWrite t1 endPos [some NUL] with
    | none => none
    | some t2 => some { l with text := t2 }

/-- The line is in a valid state holding the string `c`: `text` is `c`
followed by a terminator, `length` is its length and `capacity` is the size of
the block. -/
def Stores (l : Line) (c : List Char) : Prop :=
  cstr l.text = some c ∧ l.length = c.length ∧ l.capacity = l.text.length

instance (l : Line) (c : List Char) : Decidable (l.Stores c) := by
  unfold Stores; infer_instance

end Line

/-! ## `struct TextDocument` -/

/-- The chain of lines from `head` and the field `lineCount`. -/
structure TextDocument where
  lines : List Line
  lineCount : Int
deriving DecidableEq

/-- What an operation printed on `std::cerr`, if anything. -/
inductive Status where
  | ok
  | invalidLineNumber
  | openError
deriving DecidableEq

/-- Outcome of `saveToFile`. -/
inductive Saved where
  | written (file : List Char)
  | openError
deriving DecidableEq

/-- The stream after one `istream::getline(buffer, n)`: the characters stored
in `buffer`, the unread input, and the two state bits the loop tests. -/
structure Getline where
  buffer : List Char
  rest : List Char
  failbit : Bool
  eofbit : Bool
deriving DecidableEq

/-- The call `istream::getline(buffer, n)` with `room = n - 1 - stored` and `extracted`
characters taken so far. Tested in this order: end of file (eofbit, and
failbit when nothing was extracted); the delimiter (extracted, not stored);
`n - 1` characters stored (failbit). -/
def getline : List Char → Nat → Nat → Getline
  | [], _, extracted => { buffer := [], rest := [], failbit := extracted == 0, eofbit := true }
  | c :: rest, room, extracted =>
    if c = '\n' then { buffer := [], rest := rest, failbit := false, eofbit := false }
    else if room = 0 then { buffer := [], rest := c :: rest, failbit := true, eofbit := false }
    else
      let r := getline rest (room - 1) (extracted + 1)
      { r with buffer := c :: r.buffer }

/-- The call `strstr(hay, needle)` as an offset into `hay`; `none` is the null pointer. -/
def strstr : List Char → List Char → Option Nat
  | [], needle => if needle.isEmpty then some 0 else none
  | h :: t, needle =>
    if needle.isPrefixOf (h :: t) then some 0 else (strstr t needle).map (· + 1)

/-- Outcome of a search: the `(line, position)` pairs printed, undefined
behaviour, or a loop still running when the fuel ran out. -/
inductive SearchResult where
  | found (ms : List (Int × Int))
  | undefined
  | unfinished
deriving DecidableEq

/-- The inner loop of `searchSubstring` on a line whose `text` is the C string
`c`. `nullDiff` is the `int` value of `(char*)nullptr - current->text`, which
`pos` receives when `strstr` finds nothing. One unit of fuel per test of the
loop condition. -/
def searchLoop (nullDiff : Int) (c substring : List Char) (lineNum : Int) :
    Nat → Int → SearchResult
  | 0, _ => .unfinished
  | fuel + 1, pos =>
    let textLength : Int := c.length
    if pos < textLength then
      -- current->text + pos lies before the block when pos < 0
      if pos < 0 then .undefined
      else
        -- pos = strstr(current->text + pos, substring) - current->text
        let pos1 : Int :=
          match strstr (c.drop pos.toNat) substring with
          | some k => pos + k
          | none => nullDiff
        if pos1 ≥ 0 ∧ pos1 < textLength then
          match searchLoop nullDiff c substring lineNum fuel (pos1 + substring.length) with
          | .found ms => .found ((lineNum, pos1) :: ms)
          | r => r
        else .found []
    else .found []

/-- The outer loop of `searchSubstring` from the node `current`. -/
def searchFrom (fuel : Nat) (nullDiff : Int → Int) (substring : List Char) :
    List Line → Int → SearchResult
  | [], _ => .found []
  | current :: rest, lineNum =>
    -- strlen(current->text)
    match cstr current.text with
    | none => .undefined
    | some c =>
      match searchLoop (nullDiff lineNum) c substring lineNum fuel 0 with
      | .found ms =>
        match searchFrom fuel nullDiff substring rest (lineNum + 1) with
        | .found ms1 => .found (ms ++ ms1)
        | r => r
      | r => r

/-- The walk `while (current != nullptr && currentLine < lineNum)`: the index
of the node it stops at, `none` for `nullptr`. -/
def walk : List Line → Int → Int → Nat → Option Nat
  | [], _, _, _ => none
  | _ :: rest, currentLine, lineNum, idx =>
    if currentLine < lineNum then walk rest (currentLine + 1) lineNum (idx + 1) else some idx

/-- The loop doing `stream << current->text << std::endl` for every node from `current`. -/
def writeLines : List Line → Option (List Char)
  | [] => some []
  | current :: rest =>
    match cstr current.text with
    | none => none
    | some c =>
      match writeLines rest with
      | none => none
      | some out => some (c ++ '\n' :: out)

namespace TextDocument

/-- The constructor `TextDocument()`. -/
def new : TextDocument := { lines := [], lineCount := 0 }

def appendText (d : TextDocument) (text : List Char) : Option TextDocument :=
  -- if (tail == nullptr) head = tail = new Line()
  let lines := if d.lines.isEmpty then [Line.new] else d.lines
  -- tail->append(text)
  match lines.getLast? with
  | none => none
  | some tail =>
    match tail.append text with
    | none => none
    | some t => some { d with lines := lines.dropLast ++ [t] }

def startNewLine (d : TextDocument) : TextDocument :=
  { lines := if d.lines.isEmpty then [Line.new] else d.lines ++ [Line.new],
    lineCount := d.lineCount + 1 }

/-- The characters written to `std::cout`. -/
def print (d : TextDocument) : Option (List Char) := writeLines d.lines

/-- The parameter `opens` says whether `std::ofstream outFile(filename)` succeeds. -/
def saveToFile (d : TextDocument) (opens : Bool) : Option Saved :=
  if !opens then some .openError
  else
    match writeLines d.lines with
    | none => none
    | some out => some (.written out)

def clear (_d : TextDocument) : TextDocument := { lines := [], lineCount := 0 }

/-- The loop `while (inFile.getline(buffer, LINE_LENGTH) && !inFile.eof())`.
The body hands `buffer` to `appendText` as a C string, which ends at the first
terminator among the characters read. Every turn that enters the body has
extracted a delimiter, so `input.length + 1` units of fuel are never used up. -/
def loadLoop : Nat → List Char → TextDocument → Option TextDocument
  | 0, _, _ => none
  | fuel + 1, input, d =>
    let g := getline input (LINE_LENGTH - 1) 0
    if !g.failbit && !g.eofbit then
      match d.appendText (cstrOf g.buffer) with
      | none => none
      | some d1 => loadLoop fuel g.rest d1.startNewLine
    else some d

/-- The parameter `file` is the content of the file, `none` when
`std::ifstream inFile(filename)` fails. -/
def loadFromFile (d : TextDocument) (file : Option (List Char)) :
    Option (TextDocument × Status) :=
  match file with
  | none => some (d, .openError)
  | some input =>
    match loadLoop (input.length + 1) input d.clear with
    | none => none
    | some d1 => some (d1, .ok)

def searchSubstring (fuel : Nat) (nullDiff : Int → Int) (d : TextDocument)
    (substring : List Char) : SearchResult :=
  searchFrom fuel nullDiff substring d.lines 0

def insertSubstring (d : TextDocument) (lineNum pos : Int) (substring : List Char) :
    Option (TextDocument × Status) :=
  match walk d.lines 0 lineNum 0 with
  | none => some (d, .invalidLineNumber)
  | some i =>
    match d.lines[i]? with
    | none => none
    | some current =>
      match current.insertSubstring pos substring with
      | none => none
      | some l => some ({ d with lines := d.lines.set i l }, .ok)

/-- Lines 198-209 of `TextDocument::replaceSubstring`, on the node `current`. -/
def replaceInLine (current : Line) (pos : Int) (replacement : List Char) : Option Line :=
  let repLen : Int := replacement.length
  let newLength := pos + repLen
  match current.ensureCapacity (newLength + 1) with
  | none => none
  | some cur =>
    let remainingLength := cur.length - (pos + repLen)
    -- strlen(current->text + pos)
    match cstrAt cur.text pos with
    | none => none
    | some tl =>
      match memmove cur.text (pos + repLen) (pos + tl.length) (remainingLength + 1) with
      | none => none
      | some t1 =>
        match memcpy t1 pos replacement with
        | none => none
        | some t2 => some { cur with text := t2, length := newLength }

def replaceSubstring (d : TextDocument) (lineNum pos : Int) (replacement : List Char) :
    Option (TextDocument × Status) :=
  match walk d.lines 0 lineNum 0 with
  | none => some (d, .invalidLineNumber)
  | some i =>
    match d.lines[i]? with
    | none => none
    | some current =>
      match replaceInLine current pos replacement with
      | none => none
      | some l => some ({ d with lines := d.lines.set i l }, .ok)

end TextDocument

/-! ## Sample states -/

/-- A valid line holding `s` with `gap` unwritten bytes after the terminator. -/
def Line.holding (s : List Char) (gap : Nat) : Line :=
  { text := s.map some ++ some NUL :: List.replicate gap none,
    length := s.length,
    capacity := s.length + 1 + gap }

/-- A document with one valid line, as `appendText` leaves it. -/
def TextDocument.single (s : List Char) (gap : Nat) : TextDocument :=
  { lines := [Line.holding s gap], lineCount := 0 }

/-- The scenario `appendText(a); startNewLine(); appendText(b)` from an empty
document. -/
def TextDocument.twoLines (a b : List Char) : Option TextDocument :=
  match TextDocument.new.appendText a with
  | none => none
  | some d => d.startNewLine.appendText b

/-! ## The search as the specification words it -/

/-- The pattern `pat` occurs in `c` at offset `i`: the characters of `c` at
`[i, i + pat.length)` are `pat`. -/
def OccursAt (c pat : List Char) (i : Nat) : Prop := (c.drop i).take pat.length = pat

instance (c pat : List Char) (i : Nat) : Decidable (OccursAt c pat i) := by
  unfold OccursAt; infer_instance

/-- The first occurrence of `pat` in `c` at or after offset `start`. -/
def firstAtOrAfter (c pat : List Char) (start : Nat) : Option Nat :=
  (List.range' start (c.length + 1 - start)).find? (fun i => decide (OccursAt c pat i))

/-- The leftmost non-overlapping scan from `start`: the first occurrence at or
after `start`, then the first one at or after the end of that match, until
none remains; `n` bounds the number of matches. -/
def scanFrom (c pat : List Char) : Nat → Nat → List Nat
  | 0, _ => []
  | n + 1, start =>
    match firstAtOrAfter c pat start with
    | none => []
    | some m => m :: scanFrom c pat n (m + pat.length)

/-- The offsets of the leftmost non-overlapping scan of one line. A line of
`c.length` characters has room for at most `c.length` matches of a non-empty
pattern. -/
def nonOverlapping (c pat : List Char) : List Nat := scanFrom c pat (c.length + 1) 0

/-- The text file with one line per string, each ended by a newline. -/
def fileOf : List (List Char) → List Char
  | [] => []
  | c :: rest => c ++ '\n' :: fileOf rest

/-- The matches of a whole document, line by line from line number `lineNum`. -/
def expectedFrom (pat : List Char) : List (List Char) → Int → List (Int × Int)
  | [], _ => []
  | c :: rest, lineNum =>
    (nonOverlapping c pat).map (fun (m : Nat) => (lineNum, (m : Int))) ++
      expectedFrom pat rest (lineNum + 1)

/-! ## Invariants of the data model -/

/-- The capacity invariant: the block has room for `length` characters and
the terminator. -/
def Line.CapacityOk (l : Line) : Prop := l.capacity ≥ l.length + 1

instance (l : Line) : Decidable l.CapacityOk := by
  unfold Line.CapacityOk; infer_instance

/-- The length invariant: `text` holds a terminated string and the field
`length` is the number of its characters. -/
def Line.LengthOk (l : Line) : Prop :=
  ∃ c, cstr l.text = some c ∧ l.length = c.length

/-! ## Lemmas on heap blocks -/

theorem cstr_layout (c : List Char) (rest : List Cell) (hc : NUL ∉ c) :
    cstr (c.map some ++ some NUL :: rest) = some c := by
  induction c with
  | nil => simp [cstr]
  | cons a t ih =>
    have ha : a ≠ NUL := fun h => hc (h ▸ List.mem_cons_self _ _)
    have ht : NUL ∉ t := fun h => hc (List.mem_cons_of_mem _ h)
    simp [cstr, ha, ih ht]

theorem cstr_some {buf : List Cell} {c : List Char} (h : cstr buf = some c) :
    NUL ∉ c ∧ ∃ rest, buf = c.map some ++ some NUL :: rest := by
  induction buf generalizing c with
  | nil => simp [cstr] at h
  | cons x t ih =>
    cases x with
    | none => simp [cstr] at h
    | some a =>
      by_cases ha : a = NUL
      · simp [cstr, ha] at h
        subst h
        exact ⟨by simp, t, by simp [ha]⟩
      · simp only [cstr, ha, if_false, Option.map_eq_some'] at h
        obtain ⟨c1, hc1, rfl⟩ := h
        obtain ⟨hn, rest, hrest⟩ := ih hc1
        refine ⟨?_, rest, by simp [hrest]⟩
        intro hmem
        rcases List.mem_cons.1 hmem with h1 | h1
        · exact ha h1.symm
        · exact hn h1

theorem cstr_length_lt {buf : List Cell} {c : List Char} (h : cstr buf = some c) :
    c.length < buf.length := by
  obtain ⟨_, rest, hrest⟩ := cstr_some h
  simp [hrest]

theorem memWrite_nat (buf : List Cell) (p : Nat) (data : List Cell)
    (h : p + data.length ≤ buf.length) :
    memWrite buf (p : Int) data = some (buf.take p ++ data ++ buf.drop (p + data.length)) := by
  unfold memWrite
  have h1 : (0 : Int) ≤ (p : Int) ∧ (p : Int) + (data.length : Int) ≤ (buf.length : Int) := by
    constructor <;> omega
  rw [if_pos h1]
  simp

theorem memWrite_none_of_lt (buf : List Cell) (off : Int) (data : List Cell)
    (h : (buf.length : Int) < off + data.length) : memWrite buf off data = none := by
  unfold memWrite
  rw [if_neg]
  omega

theorem memmove_nat (buf : List Cell) (dst src n : Nat)
    (hs : src + n ≤ buf.length) (hd : dst + n ≤ buf.length) :
    memmove buf (dst : Int) (src : Int) (n : Int)
      = some (buf.take dst ++ (buf.drop src).take n ++ buf.drop (dst + n)) := by
  unfold memmove
  have h1 : (0 : Int) ≤ (n : Int) ∧ (0 : Int) ≤ (src : Int) ∧ (src : Int) + (n : Int) ≤ (buf.length : Int) := by
    refine ⟨?_, ?_, ?_⟩ <;> omega
  rw [if_pos h1]
  have hlen : ((buf.drop src).take n).length = n := by
    simp; omega
  have := memWrite_nat buf dst ((buf.drop src).take n) (by rw [hlen]; exact hd)
  simp only [Int.toNat_ofNat]
  rw [this, hlen]

/-! ## `Line` -/

theorem Line.Stores.layout {l : Line} {c : List Char} (h : l.Stores c) :
    NUL ∉ c ∧ ∃ rest, l.text = c.map some ++ some NUL :: rest := cstr_some h.1

theorem Line.Stores.length_lt {l : Line} {c : List Char} (h : l.Stores c) :
    (c.length : Int) < l.capacity := by
  have := cstr_length_lt h.1
  rw [h.2.2]; omega

/-- On a valid line `ensureCapacity` succeeds, keeps the string and leaves at
least `minCapacity` bytes. -/
theorem Line.ensureCapacity_stores {l : Line} {c : List Char} (h : l.Stores c)
    (minCapacity : Int) :
    ∃ l1, l.ensureCapacity minCapacity = some l1 ∧ l1.Stores c ∧
      minCapacity ≤ l1.capacity ∧ l.capacity ≤ l1.capacity := by
  unfold Line.ensureCapacity
  by_cases hm : minCapacity > l.capacity
  · have hlt := h.length_lt
    obtain ⟨m, rfl⟩ : ∃ m : Nat, minCapacity = (m : Int) :=
      ⟨minCapacity.toNat, by omega⟩
    have hfit : 0 + (c.map some ++ [some NUL]).length ≤
        (List.replicate (m * 2) (none : Cell)).length := by
      simp; omega
    have hw := memWrite_nat (List.replicate (m * 2) (none : Cell)) 0 (c.map some ++ [some NUL]) hfit
    have hcast : ((m : Int) * 2).toNat = m * 2 := by omega
    simp only [if_pos hm, h.1, strcpy, hcast]
    rw [show (0 : Int) = ((0 : Nat) : Int) from rfl, hw]
    refine ⟨_, rfl, ⟨?_, h.2.1, ?_⟩, ?_, ?_⟩
    · simp only [List.take_zero, List.nil_append, List.append_assoc, List.singleton_append]
      exact cstr_layout c _ h.layout.1
    · simp
      omega
    · show (m : Int) ≤ (m : Int) * 2
      omega
    · show l.capacity ≤ (m : Int) * 2
      omega
  · rw [if_neg hm]
    exact ⟨l, rfl, h, by omega, le_refl _⟩

/-- On a valid line holding `c`, `append` leaves a valid line holding `c ++ str`. -/
theorem Line.append_stores {l : Line} {c : List Char} (h : l.Stores c)
    (str : List Char) (hs : NUL ∉ str) :
    ∃ l2, l.append str = some l2 ∧ l2.Stores (c ++ str) := by
  obtain ⟨l1, he, h1, hcap, -⟩ := Line.ensureCapacity_stores h (l.length + str.length + 1)
  obtain ⟨-, rest, hrest⟩ := h1.layout
  have hlen : l1.length = (c.length : Int) := h1.2.1
  have hsz : (l1.text.length : Int) = l1.capacity := h1.2.2.symm
  have hl : l.length = (c.length : Int) := h.2.1
  have hfit : c.length + (str.map some ++ [some NUL]).length ≤ l1.text.length := by
    simp; omega
  have hw := memWrite_nat l1.text c.length (str.map some ++ [some NUL]) hfit
  unfold Line.append
  simp only [he, strcpy, hlen, hw]
  refine ⟨_, rfl, ?_, ?_, ?_⟩
  · show cstr _ = some (c ++ str)
    have htake : List.take c.length l1.text = c.map some := by
      rw [hrest, List.take_left']
      simp
    rw [htake]
    have : List.map some c ++ (List.map some str ++ [some NUL]) ++
        List.drop (c.length + (List.map some str ++ [some NUL]).length) l1.text
        = (c ++ str).map some ++ some NUL ::
          List.drop (c.length + (List.map some str ++ [some NUL]).length) l1.text := by
      simp
    rw [this]
    apply cstr_layout
    intro hmem
    rcases List.mem_append.1 hmem with h2 | h2
    · exact h.layout.1 h2
    · exact hs h2
  · show (c.length : Int) + (str.length : Int) = ((c ++ str).length : Int)
    simp
  · show l1.capacity = _
    rw [← hsz]
    simp
    omega

theorem shift_cells {α : Type} (A B R : List α) (k : Nat) :
    ((A ++ B ++ R).take (A.length + k) ++ ((A ++ B ++ R).drop A.length).take B.length
      ++ (A ++ B ++ R).drop (A.length + k + B.length))
    = A ++ (B ++ R).take k ++ B ++ R.drop k := by
  have e1 : (A ++ B ++ R).take (A.length + k) = A ++ (B ++ R).take k := by
    rw [List.append_assoc, List.take_append]
  have e2 : ((A ++ B ++ R).drop A.length).take B.length = B := by
    rw [List.append_assoc, List.drop_left, List.take_left]
  have e3 : (A ++ B ++ R).drop (A.length + k + B.length) = R.drop k := by
    rw [List.append_assoc, show A.length + k + B.length = A.length + (B.length + k) by omega,
      List.drop_append, List.drop_append]
  rw [e1, e2, e3]

/-- The block of a valid line, cut at offset `p`. -/
theorem Line.Stores.cut {l : Line} {c : List Char} (h : l.Stores c) (p : Nat) :
    ∃ R, l.text = (c.take p).map some ++ ((c.drop p).map some ++ [some NUL]) ++ R ∧
      (l.text.length : Int) = l.capacity ∧ R.length = l.text.length - (c.length + 1) := by
  obtain ⟨-, rest, hrest⟩ := h.layout
  refine ⟨rest, ?_, h.2.2.symm, ?_⟩
  · rw [hrest]
    simp only [List.map_take, List.map_drop, List.append_assoc, List.singleton_append]
    rw [← List.append_assoc, List.take_append_drop]
  · rw [hrest]; simp; omega

/-- On a valid line holding `c`, `Line::insertSubstring` at `0 ≤ pos ≤ length`:
the result is a valid line holding `take pos c ++ substring ++ drop pos c`. -/
theorem Line.insertSubstring_stores {l : Line} {c : List Char} (h : l.Stores c)
    (s : List Char) (hs : NUL ∉ s) (p : Nat) (hp : p ≤ c.length) :
    ∃ l2, l.insertSubstring (p : Int) s = some l2 ∧
      l2.Stores (c.take p ++ s ++ c.drop p) := by
  obtain ⟨l1, he, h1, hcap, -⟩ := Line.ensureCapacity_stores h (l.length + s.length + 1)
  obtain ⟨R, htext, hsz, hR⟩ := h1.cut p
  have hlen : l1.length = (c.length : Int) := h1.2.1
  have hl : l.length = (c.length : Int) := h.2.1
  have hlt := cstr_length_lt h1.1
  set A : List Cell := (c.take p).map some with hA
  set B : List Cell := (c.drop p).map some ++ [some NUL] with hB
  have hAl : A.length = p := by simp [hA]; omega
  have hBl : B.length = c.length - p + 1 := by simp [hB]
  have hRl : s.length ≤ R.length := by omega
  have e1 : (p : Int) + (s.length : Int) = ((A.length + s.length : Nat) : Int) := by
    rw [hAl]; push_cast; rfl
  have e2 : l1.length - (p : Int) + 1 = ((B.length : Nat) : Int) := by
    rw [hBl, hlen]; omega
  have e3 : (p : Int) = ((A.length : Nat) : Int) := by rw [hAl]
  have hmv := memmove_nat l1.text (A.length + s.length) A.length B.length
    (by rw [hAl, hBl]; omega) (by rw [hAl, hBl]; omega)
  rw [htext, shift_cells] at hmv
  have hTk : ((B ++ R).take s.length).length = s.length := by
    simp; omega
  have hfit : A.length + (s.map some).length ≤
      (A ++ (B ++ R).take s.length ++ B ++ R.drop s.length).length := by
    simp; omega
  have hcp := memWrite_nat (A ++ (B ++ R).take s.length ++ B ++ R.drop s.length) A.length
    (s.map some) hfit
  have e4 : List.take A.length (A ++ (B ++ R).take s.length ++ B ++ R.drop s.length) = A := by
    rw [List.append_assoc, List.append_assoc, List.take_left]
  have e5 : List.drop (A.length + (s.map some).length)
      (A ++ (B ++ R).take s.length ++ B ++ R.drop s.length) = B ++ R.drop s.length := by
    rw [List.append_assoc, List.append_assoc, List.drop_append, List.length_map]
    rw [List.drop_left' hTk]
  rw [e4, e5] at hcp
  unfold Line.insertSubstring
  simp only [he]
  rw [e1, e2, e3]
  rw [← htext] at hmv
  simp only [hmv, memcpy, hcp]
  refine ⟨_, rfl, ?_, ?_, ?_⟩
  · show cstr _ = some _
    have : A ++ List.map some s ++ (B ++ List.drop s.length R)
        = (c.take p ++ s ++ c.drop p).map some ++ some NUL :: List.drop s.length R := by
      simp [hA, hB]
    rw [this]
    apply cstr_layout
    have hc := h.layout.1
    intro hmem
    simp only [List.mem_append] at hmem
    rcases hmem with (h2 | h2) | h2
    · exact hc (List.mem_of_mem_take h2)
    · exact hs h2
    · exact hc (List.mem_of_mem_drop h2)
  · show l1.length + (s.length : Int) = _
    rw [hlen]
    simp
    omega
  · show l1.capacity = _
    rw [← hsz, htext]
    simp [hAl, hBl]
    omega

theorem take_add_append {α : Type} {A : List α} {p : Nat} (hA : A.length = p) (n : Nat)
    (X : List α) : List.take (p + n) (A ++ X) = A ++ List.take n X := by
  subst hA
  exact List.take_append n

/-- On a valid line holding `c`, `Line::replaceSubstring`, when the copy stays
inside the block: the string becomes `take pos c` followed by the part of the
replacement that ends before the old length; `length` and `capacity` stay. -/
theorem Line.replaceSubstring_stores {l : Line} {c : List Char} (h : l.Stores c)
    (r : List Char) (hr : NUL ∉ r) (p : Nat) (hp : p ≤ c.length)
    (hfit : (p : Int) + r.length ≤ l.capacity) :
    ∃ l2, l.replaceSubstring (p : Int) r = some l2 ∧
      l2.content = some (c.take p ++ r.take (c.length - p)) ∧
      l2.length = l.length ∧ l2.capacity = l.capacity ∧
      l2.text.length = l.text.length := by
  obtain ⟨hc, rest, hrest⟩ := h.layout
  have hl : l.length = (c.length : Int) := h.2.1
  have hcap : l.capacity = (l.text.length : Int) := h.2.2
  have hlt := cstr_length_lt h.1
  have hfit1 : p + (r.map some).length ≤ l.text.length := by
    simp; omega
  have hcp := memWrite_nat l.text p (r.map some) hfit1
  set e : Nat := p + min r.length (c.length - p) with he
  have hend : (if (p : Int) + (r.length : Int) > l.length then l.length
      else (p : Int) + (r.length : Int)) = ((e : Nat) : Int) := by
    rw [hl]
    split_ifs with hgt
    · have : min r.length (c.length - p) = c.length - p := by omega
      rw [he, this]; omega
    · have : min r.length (c.length - p) = r.length := by omega
      rw [he, this]; push_cast; rfl
  set t1 : List Cell := List.take p l.text ++ List.map some r ++
    List.drop (p + (List.map some r).length) l.text with ht1
  have ht1len : t1.length = l.text.length := by
    simp [ht1]; omega
  have hfit2 : e + [some NUL].length ≤ t1.length := by
    simp; omega
  have hw := memWrite_nat t1 e [some NUL] hfit2
  have htake : List.take e t1 = (c.take p ++ r.take (c.length - p)).map some := by
    have hp1 : List.take p l.text = (c.take p).map some := by
      rw [hrest, List.take_append_of_le_length (by simp; exact hp), List.map_take]
    have hpl : ((c.take p).map some : List Cell).length = p := by simp; omega
    rw [ht1, hp1, List.append_assoc, he, take_add_append hpl,
      List.take_append_of_le_length (by simp), ← List.map_take, ← List.map_append]
    congr 2
    rw [List.take_eq_take]
    simp
    exact Nat.min_comm _ _
  unfold Line.replaceSubstring
  simp only [memcpy, hcp, hend, hw, htake]
  refine ⟨_, rfl, ?_, rfl, rfl, ?_⟩
  · show cstr _ = some _
    rw [List.append_assoc, List.singleton_append]
    apply cstr_layout
    intro hmem
    rcases List.mem_append.1 hmem with h2 | h2
    · exact hc (List.mem_of_mem_take h2)
    · exact hr (List.mem_of_mem_take h2)
  · show (_ ++ [some NUL] ++ List.drop (e + [some NUL].length) t1).length = _
    rw [← htake, ← ht1len]
    simp
    omega

/-! ## `TextDocument::replaceSubstring`, lines 198-209 -/

theorem Line.ensureCapacity_of_le (l : Line) (minCapacity : Int)
    (h : minCapacity ≤ l.capacity) : l.ensureCapacity minCapacity = some l := by
  unfold Line.ensureCapacity
  rw [if_neg (by omega)]

theorem Line.Stores.cstrAt {l : Line} {c : List Char} (h : l.Stores c) (p : Nat)
    (hp : p ≤ c.length) : cstrAt l.text (p : Int) = some (c.drop p) := by
  obtain ⟨R, htext, -, -⟩ := h.cut p
  have hpl : ((c.take p).map some : List Cell).length = p := by simp; omega
  unfold Editor.cstrAt
  rw [if_pos (by omega), Int.toNat_ofNat, htext, List.append_assoc, List.drop_left' hpl,
    List.append_assoc, List.singleton_append]
  exact cstr_layout _ _ (fun hmem => h.layout.1 (List.mem_of_mem_drop hmem))

/-- Lines 198-209 on a valid line holding `c`, for a replacement that ends at
or before the old end (`pos + repLen ≤ length`), when the bytes `memmove`
reads, `text[length .. 2·length − pos − repLen]`, lie inside the block: the
line becomes a valid line holding `take pos c ++ replacement`. -/
theorem TextDocument.replaceInLine_stores {l : Line} {c : List Char} (h : l.Stores c)
    (r : List Char) (hr : NUL ∉ r) (p : Nat) (hp : p + r.length ≤ c.length)
    (hsrc : (c.length : Int) + (c.length - (p + r.length) + 1) ≤ l.capacity) :
    ∃ l2, TextDocument.replaceInLine l (p : Int) r = some l2 ∧
      l2.Stores (c.take p ++ r) ∧ l2.capacity = l.capacity := by
  obtain ⟨hc, R, hrest⟩ := h.layout
  have hl : l.length = (c.length : Int) := h.2.1
  have hcap : l.capacity = (l.text.length : Int) := h.2.2
  have hlt := cstr_length_lt h.1
  have hens := Line.ensureCapacity_of_le l (((p + r.length : Nat) : Int) + 1) (by omega)
  have hstr := h.cstrAt p (by omega)
  set n : Nat := c.length - (p + r.length) + 1 with hn
  have e1 : (p : Int) + (r.length : Int) = ((p + r.length : Nat) : Int) := by push_cast; rfl
  have e2 : (p : Int) + ((c.drop p).length : Int) = ((c.length : Nat) : Int) := by
    simp; omega
  have e3 : l.length - ((p + r.length : Nat) : Int) + 1 = ((n : Nat) : Int) := by
    rw [hl, hn]; omega
  have hmv := memmove_nat l.text (p + r.length) c.length n (by omega) (by omega)
  have hC : ((c.map some : List Cell)).length = c.length := by simp
  have hmoved : List.take n (List.drop c.length l.text) = some NUL :: List.take (n - 1) R := by
    rw [hrest, List.drop_left' hC, show n = (n - 1) + 1 by omega, List.take_succ_cons]
    simp
  have hpre : List.take (p + r.length) l.text = (c.take (p + r.length)).map some := by
    rw [hrest, List.take_append_of_le_length (by simp; omega), List.map_take]
  have hpost : List.drop (p + r.length + n) l.text = R := by
    have : p + r.length + n = c.length + 1 := by omega
    rw [this, hrest, ← hC, List.drop_append]
    simp
  rw [hmoved, hpre, hpost] at hmv
  set t1 : List Cell :=
    List.map some (List.take (p + r.length) c) ++ some NUL :: List.take (n - 1) R ++ R with ht1
  have hRlen : R.length = l.text.length - (c.length + 1) := by
    rw [hrest]; simp; omega
  have hpl : ((c.take p).map some : List Cell).length = p := by simp; omega
  have hsplit : List.map some (List.take (p + r.length) c)
      = (c.take p).map some ++ ((c.drop p).take r.length).map some := by
    rw [← List.map_append, List.take_add]
  have hfit : p + (r.map some).length ≤ t1.length := by
    simp [ht1]; omega
  have hcp := memWrite_nat t1 p (r.map some) hfit
  have htk : List.take p t1 = (c.take p).map some := by
    rw [ht1, hsplit, List.append_assoc, List.append_assoc, List.take_left' hpl]
  have hdr : List.drop (p + (r.map some).length) t1 = some NUL :: List.take (n - 1) R ++ R := by
    have : (List.map some (List.take (p + r.length) c) : List Cell).length
        = p + (r.map some).length := by simp; omega
    rw [ht1, List.append_assoc, List.drop_left' this]
  rw [htk, hdr] at hcp
  unfold TextDocument.replaceInLine
  simp only [hens, hstr, e1, e2, e3, hmv, memcpy, hcp]
  refine ⟨_, rfl, ⟨?_, ?_, ?_⟩, ?_⟩
  · show cstr _ = some _
    have : List.map some (List.take p c) ++ List.map some r ++
        (some NUL :: List.take (n - 1) R ++ R)
        = (c.take p ++ r).map some ++ some NUL :: (List.take (n - 1) R ++ R) := by
      simp
    rw [this]
    apply cstr_layout
    intro hmem
    rcases List.mem_append.1 hmem with h2 | h2
    · exact hc (List.mem_of_mem_take h2)
    · exact hr h2
  · show ((p + r.length : Nat) : Int) = _
    simp
    omega
  · show l.capacity = _
    rw [hcap]
    simp
    omega
  · rfl

/-! ## Locating a line -/

theorem walk_none (lines : List Line) (currentLine lineNum : Int) (idx : Nat)
    (h : (lines.length : Int) ≤ lineNum - currentLine) :
    walk lines currentLine lineNum idx = none := by
  induction lines generalizing currentLine idx with
  | nil => rfl
  | cons l rest ih =>
    simp only [List.length_cons, Nat.cast_add, Nat.cast_one] at h
    unfold walk
    rw [if_pos (by omega)]
    exact ih _ _ (by omega)

theorem walk_some (lines : List Line) (currentLine lineNum : Int) (idx : Nat)
    (h : (lineNum - currentLine).toNat < lines.length) :
    walk lines currentLine lineNum idx = some (idx + (lineNum - currentLine).toNat) := by
  induction lines generalizing currentLine idx with
  | nil => simp at h
  | cons l rest ih =>
    simp only [List.length_cons] at h
    unfold walk
    by_cases hlt : currentLine < lineNum
    · rw [if_pos hlt, ih (currentLine + 1) (idx + 1) (by omega)]
      congr 1
      omega
    · rw [if_neg hlt]
      congr 1
      omega

theorem walk_index (lines : List Line) (i : Nat) (h : i < lines.length) :
    walk lines 0 (i : Int) 0 = some i := by
  have := walk_some lines 0 (i : Int) 0 (by simpa using h)
  simpa using this

theorem TextDocument.replaceSubstring_at (d : TextDocument) (i : Nat) (l l2 : Line)
    (pos : Int) (r : List Char) (hi : d.lines[i]? = some l)
    (h : TextDocument.replaceInLine l pos r = some l2) :
    d.replaceSubstring (i : Int) pos r = some ({ d with lines := d.lines.set i l2 }, Status.ok) := by
  have hlt : i < d.lines.length := (List.getElem?_eq_some_iff.1 hi).1
  unfold TextDocument.replaceSubstring
  simp only [walk_index d.lines i hlt, hi, h]

theorem TextDocument.insertSubstring_at (d : TextDocument) (i : Nat) (l l2 : Line)
    (pos : Int) (s : List Char) (hi : d.lines[i]? = some l)
    (h : l.insertSubstring pos s = some l2) :
    d.insertSubstring (i : Int) pos s = some ({ d with lines := d.lines.set i l2 }, Status.ok) := by
  have hlt : i < d.lines.length := (List.getElem?_eq_some_iff.1 hi).1
  unfold TextDocument.insertSubstring
  simp only [walk_index d.lines i hlt, hi, h]

theorem TextDocument.replaceSubstring_undefined (d : TextDocument) (i : Nat) (l : Line)
    (pos : Int) (r : List Char) (hi : d.lines[i]? = some l)
    (h : TextDocument.replaceInLine l pos r = none) :
    d.replaceSubstring (i : Int) pos r = none := by
  have hlt : i < d.lines.length := (List.getElem?_eq_some_iff.1 hi).1
  unfold TextDocument.replaceSubstring
  simp only [walk_index d.lines i hlt, hi, h]

/-! ## Searching -/

theorem isPrefixOf_iff_take (pat x : List Char) :
    pat.isPrefixOf x = true ↔ x.take pat.length = pat := by
  induction pat generalizing x with
  | nil => simp
  | cons a t ih =>
    cases x with
    | nil => simp
    | cons b y =>
      rw [List.isPrefixOf, Bool.and_eq_true, ih y]
      simp only [beq_iff_eq, List.length_cons, List.take_succ_cons, List.cons.injEq]
      constructor
      · rintro ⟨h1, h2⟩; exact ⟨h1.symm, h2⟩
      · rintro ⟨h1, h2⟩; exact ⟨h1.symm, h2⟩

theorem strstr_eq_find (hay pat : List Char) :
    strstr hay pat =
      (List.range (hay.length + 1)).find? (fun i => pat.isPrefixOf (hay.drop i)) := by
  induction hay with
  | nil =>
    cases pat with
    | nil => rfl
    | cons a t => rfl
  | cons h t ih =>
    rw [strstr, List.length_cons, List.range_succ_eq_map, List.find?_cons, List.find?_map]
    simp only [List.drop_zero]
    by_cases hp : pat.isPrefixOf (h :: t) = true
    · simp [hp]
    · simp only [hp, if_false]
      rw [ih]
      rfl

theorem firstAtOrAfter_eq_strstr (c pat : List Char) (start : Nat) (h : start ≤ c.length) :
    firstAtOrAfter c pat start = (strstr (c.drop start) pat).map (start + ·) := by
  unfold firstAtOrAfter
  rw [strstr_eq_find, List.range'_eq_map_range, List.find?_map, List.length_drop]
  have e : c.length + 1 - start = c.length - start + 1 := by omega
  rw [e]
  congr 2
  funext i
  simp only [Function.comp, OccursAt, List.drop_drop]
  by_cases hp : pat.isPrefixOf (List.drop (start + i) c) = true
  · rw [hp]
    exact decide_eq_true ((isPrefixOf_iff_take _ _).1 hp)
  · have : ¬ List.take pat.length (List.drop (start + i) c) = pat :=
      fun h1 => hp ((isPrefixOf_iff_take _ _).2 h1)
    simp only [Bool.not_eq_true] at hp
    rw [hp]
    exact decide_eq_false this

theorem OccursAt.bound {c pat : List Char} {m : Nat} (h : OccursAt c pat m) :
    m + pat.length ≤ c.length ∨ pat = [] := by
  unfold OccursAt at h
  have hl := congrArg List.length h
  simp only [List.length_take, List.length_drop] at hl
  by_cases hp : pat = []
  · exact Or.inr hp
  · left
    have : 0 < pat.length := List.length_pos.2 hp
    omega

theorem firstAtOrAfter_some {c pat : List Char} {start m : Nat}
    (h : firstAtOrAfter c pat start = some m) :
    start ≤ m ∧ m ≤ c.length ∧ OccursAt c pat m := by
  unfold firstAtOrAfter at h
  have h1 := List.find?_some h
  have h2 := List.mem_of_find?_eq_some h
  rw [List.mem_range'_1] at h2
  exact ⟨h2.1, by omega, of_decide_eq_true h1⟩

theorem firstAtOrAfter_none_of_le {c pat : List Char} {start : Nat} (hpat : pat ≠ [])
    (h : c.length ≤ start) : firstAtOrAfter c pat start = none := by
  cases hf : firstAtOrAfter c pat start with
  | none => rfl
  | some m =>
    obtain ⟨h1, -, h3⟩ := firstAtOrAfter_some hf
    rcases h3.bound with h4 | h4
    · have : 0 < pat.length := List.length_pos.2 hpat
      omega
    · exact absurd h4 hpat

theorem scanFrom_of_le {c pat : List Char} (hpat : pat ≠ []) (n : Nat) {start : Nat}
    (h : c.length ≤ start) : scanFrom c pat n start = [] := by
  cases n with
  | zero => rfl
  | succ n => simp [scanFrom, firstAtOrAfter_none_of_le hpat h]

/-- The bound on the number of matches in `scanFrom` plays no part once it
exceeds the characters left: `nonOverlapping` is the whole scan. -/
theorem scanFrom_bound_irrelevant {c pat : List Char} (hpat : pat ≠ []) :
    ∀ (n m p : Nat), c.length + 1 ≤ n + p → c.length + 1 ≤ m + p →
      scanFrom c pat n p = scanFrom c pat m p := by
  intro n
  induction n with
  | zero =>
    intro m p hn _
    rw [scanFrom_of_le hpat 0 (by omega), scanFrom_of_le hpat m (by omega)]
  | succ n ih =>
    intro m p hn hm
    by_cases hp : c.length ≤ p
    · rw [scanFrom_of_le hpat _ hp, scanFrom_of_le hpat m hp]
    · obtain ⟨m1, rfl⟩ : ∃ m1, m = m1 + 1 := ⟨m - 1, by omega⟩
      simp only [scanFrom]
      cases hf : firstAtOrAfter c pat p with
      | none => rfl
      | some k =>
        obtain ⟨h1, -, -⟩ := firstAtOrAfter_some hf
        have hpl : 0 < pat.length := List.length_pos.2 hpat
        simp only
        rw [ih m1 (k + pat.length) (by omega) (by omega)]

/-- The inner loop of the search, for a non-empty pattern and with the value
of `nullptr - text` outside `[0, textLength)`, prints the leftmost
non-overlapping scan; `c.length + 1 - p` units of fuel are enough. -/
theorem searchLoop_scan (nd : Int) (c pat : List Char) (ln : Int) (hpat : pat ≠ [])
    (hnd : ¬ (0 ≤ nd ∧ nd < c.length)) :
    ∀ (fuel n p : Nat), c.length + 1 ≤ fuel + p → 1 ≤ fuel → c.length + 1 ≤ n + p →
      searchLoop nd c pat ln fuel (p : Int)
        = .found ((scanFrom c pat n p).map (fun (m : Nat) => (ln, (m : Int)))) := by
  intro fuel
  induction fuel with
  | zero => intro n p _ h1; omega
  | succ fuel ih =>
    intro n p hf _ hn
    unfold searchLoop
    by_cases hlt : (p : Int) < (c.length : Int)
    · have hp : p < c.length := by omega
      obtain ⟨n1, rfl⟩ : ∃ n1, n = n1 + 1 := ⟨n - 1, by omega⟩
      have hfa := firstAtOrAfter_eq_strstr c pat p (by omega)
      simp only [hlt, if_true, show ¬ ((p : Int) < 0) by omega, if_false, Int.toNat_ofNat]
      cases hk : strstr (c.drop p) pat with
      | none =>
        rw [hk] at hfa
        simp only [Option.map_none'] at hfa
        have hnd1 : ¬ (nd ≥ 0 ∧ nd < (c.length : Int)) := fun h => hnd ⟨h.1, h.2⟩
        simp only [hnd1, if_false, scanFrom, hfa, List.map_nil]
      | some k =>
        rw [hk] at hfa
        simp only [Option.map_some'] at hfa
        obtain ⟨h1, -, h3⟩ := firstAtOrAfter_some hfa
        have hb : p + k + pat.length ≤ c.length := by
          rcases h3.bound with h4 | h4
          · exact h4
          · exact absurd h4 hpat
        have hpl : 0 < pat.length := List.length_pos.2 hpat
        have hin : ((p : Int) + (k : Int) ≥ 0 ∧ (p : Int) + (k : Int) < (c.length : Int)) := by
          constructor <;> omega
        have hcast : (p : Int) + (k : Int) + (pat.length : Int)
            = ((p + k + pat.length : Nat) : Int) := by push_cast; rfl
        simp only [hin, and_self, if_true, hcast]
        rw [ih n1 (p + k + pat.length) (by omega) (by omega) (by omega)]
        simp only [scanFrom, hfa, List.map_cons]
        push_cast
        rfl
    · simp only [hlt, if_false]
      rw [scanFrom_of_le hpat n (by omega)]
      rfl

theorem searchFrom_expected (fuel : Nat) (nd : Int → Int) (pat : List Char) (hpat : pat ≠ []) :
    ∀ (lines : List Line) (contents : List (List Char)) (lineNum : Int),
      lines.map Line.content = contents.map some →
      (∀ c ∈ contents, c.length < fuel) →
      (∀ (j : Nat) (c : List Char), contents[j]? = some c →
        ¬ (0 ≤ nd (lineNum + j) ∧ nd (lineNum + j) < c.length)) →
      searchFrom fuel nd pat lines lineNum = .found (expectedFrom pat contents lineNum) := by
  intro lines
  induction lines with
  | nil =>
    intro contents lineNum hc _ _
    cases contents with
    | nil => rfl
    | cons c cs => simp at hc
  | cons l rest ih =>
    intro contents lineNum hc hfuel hnd
    cases contents with
    | nil => simp at hc
    | cons c cs =>
      simp only [List.map_cons, List.cons.injEq] at hc
      obtain ⟨hl, hrest⟩ := hc
      have hlc : cstr l.text = some c := hl
      have hcf : c.length < fuel := hfuel c (List.mem_cons_self _ _)
      have hnd0 : ¬ (0 ≤ nd lineNum ∧ nd lineNum < c.length) := by
        have := hnd 0 c (by simp)
        simpa using this
      have hloop := searchLoop_scan (nd lineNum) c pat lineNum hpat hnd0 fuel (c.length + 1) 0
        (by omega) (by omega) (by omega)
      have htail := ih cs (lineNum + 1) hrest
        (fun c1 h1 => hfuel c1 (List.mem_cons_of_mem _ h1))
        (fun j c1 h1 => by
          have := hnd (j + 1) c1 (by simpa using h1)
          have e : lineNum + ((j + 1 : Nat) : Int) = lineNum + 1 + (j : Int) := by
            push_cast; ring
          rw [e] at this
          exact this)
      unfold searchFrom
      simp only [hlc]
      rw [show ((0 : Int)) = ((0 : Nat) : Int) from rfl, hloop, htail]
      rfl

/-! ## Printing, saving and loading -/

theorem writeLines_contents :
    ∀ (lines : List Line) (cs : List (List Char)),
      lines.map Line.content = cs.map some → writeLines lines = some (fileOf cs) := by
  intro lines
  induction lines with
  | nil =>
    intro cs h
    cases cs with
    | nil => rfl
    | cons c cs => simp at h
  | cons l rest ih =>
    intro cs h
    cases cs with
    | nil => simp at h
    | cons c cs =>
      simp only [List.map_cons, List.cons.injEq] at h
      have hl : cstr l.text = some c := h.1
      simp only [writeLines, hl, ih cs h.2, fileOf]

theorem getline_line (c rest : List Char) (hnl : '\n' ∉ c) :
    ∀ (room extracted : Nat), c.length ≤ room →
      getline (c ++ '\n' :: rest) room extracted
        = { buffer := c, rest := rest, failbit := false, eofbit := false } := by
  induction c with
  | nil =>
    intro room extracted _
    simp [getline]
  | cons a t ih =>
    intro room extracted hroom
    have ha : a ≠ '\n' := fun h => hnl (h ▸ List.mem_cons_self _ _)
    have ht : '\n' ∉ t := fun h => hnl (List.mem_cons_of_mem _ h)
    simp only [List.length_cons] at hroom
    have hr : room ≠ 0 := by omega
    have e := ih ht (room - 1) (extracted + 1) (by omega)
    rw [List.cons_append, getline]
    simp only [ha, if_false, hr, e]

theorem Line.new_append (c : List Char) (hlen : c.length ≤ 9) (hc : NUL ∉ c) :
    ∃ l, Line.new.append c = some l ∧ l.Stores c := by
  have hens := Line.ensureCapacity_of_le Line.new (Line.new.length + (c.length : Int) + 1)
    (by show (0 : Int) + (c.length : Int) + 1 ≤ 10; omega)
  have hfit : 0 + (c.map some ++ [some NUL]).length ≤ Line.new.text.length := by
    show _ ≤ (List.replicate 10 (none : Cell)).length
    simp; omega
  have hw := memWrite_nat Line.new.text 0 (c.map some ++ [some NUL]) hfit
  unfold Line.append
  simp only [hens, strcpy]
  rw [show Line.new.length = ((0 : Nat) : Int) from rfl, hw]
  refine ⟨_, rfl, ?_, ?_, ?_⟩
  · show cstr _ = some c
    simp only [List.take_zero, List.nil_append, List.append_assoc, List.singleton_append]
    exact cstr_layout c _ hc
  · show ((0 : Nat) : Int) + (c.length : Int) = _
    simp
  · show (10 : Int) = _
    have : (Line.new.text).length = 10 := by
      show (List.replicate 10 (none : Cell)).length = 10
      simp
    simp [this]
    omega

theorem Line.new_append_undefined (s : List Char) (h : 10 ≤ s.length) :
    Line.new.append s = none := by
  unfold Line.append Line.ensureCapacity
  have hgt : Line.new.length + (s.length : Int) + 1 > Line.new.capacity := by
    show (0 : Int) + (s.length : Int) + 1 > 10
    omega
  have hn : cstr Line.new.text = none := by decide
  simp only [hgt, if_true, hn]

theorem TextDocument.appendText_fresh (d : TextDocument) (c : List Char)
    (hd : d.lines = [] ∨ ∃ pre, d.lines = pre ++ [Line.new])
    (hlen : c.length ≤ 9) (hc : NUL ∉ c) :
    ∃ l, l.Stores c ∧ d.appendText c = some { d with lines := d.lines.dropLast ++ [l] } := by
  obtain ⟨l, hl, hs⟩ := Line.new_append c hlen hc
  refine ⟨l, hs, ?_⟩
  unfold TextDocument.appendText
  rcases hd with h | ⟨pre, h⟩
  · simp [h, hl]
  · simp [h, hl]

theorem cstrOf_of_not_mem (c : List Char) (h : NUL ∉ c) : cstrOf c = c := by
  unfold cstrOf
  rw [List.takeWhile_eq_self_iff]
  intro a ha
  have : a ≠ NUL := fun h1 => h (h1 ▸ ha)
  simpa using this

theorem loadLoop_fileOf :
    ∀ (cs : List (List Char)), (∀ c ∈ cs, c.length ≤ 9 ∧ '\n' ∉ c ∧ NUL ∉ c) →
      ∀ (fuel : Nat) (d : TextDocument), (fileOf cs).length < fuel →
        (d.lines = [] ∨ ∃ pre, d.lines = pre ++ [Line.new]) →
        ∃ ls : List Line, ls.map Line.content = cs.map some ∧
          TextDocument.loadLoop fuel (fileOf cs) d = some
            { lines := if ls = [] then d.lines else d.lines.dropLast ++ ls ++ [Line.new],
              lineCount := d.lineCount + ls.length } := by
  intro cs
  induction cs with
  | nil =>
    intro _ fuel d hfuel _
    obtain ⟨f, rfl⟩ : ∃ f, fuel = f + 1 := ⟨fuel - 1, by omega⟩
    refine ⟨[], rfl, ?_⟩
    simp [fileOf, TextDocument.loadLoop, getline]
  | cons c cs ih =>
    intro hcs fuel d hfuel hd
    obtain ⟨h9, hnl, hnul⟩ := hcs c (List.mem_cons_self _ _)
    simp only [fileOf, List.length_append, List.length_cons] at hfuel
    obtain ⟨f, rfl⟩ : ∃ f, fuel = f + 1 := ⟨fuel - 1, by omega⟩
    obtain ⟨l, hstore, happ⟩ := TextDocument.appendText_fresh d c hd h9 hnul
    have hg := getline_line c (fileOf cs) hnl (LINE_LENGTH - 1) 0
      (by show c.length ≤ 63; omega)
    set d2 : TextDocument := TextDocument.startNewLine { d with lines := d.lines.dropLast ++ [l] }
      with hd2
    have hd2lines : d2.lines = (d.lines.dropLast ++ [l]) ++ [Line.new] := by
      simp [hd2, TextDocument.startNewLine]
    have hd2count : d2.lineCount = d.lineCount + 1 := rfl
    obtain ⟨ls, hls, hrun⟩ := ih (fun c1 h1 => hcs c1 (List.mem_cons_of_mem _ h1)) f d2
      (by omega) (Or.inr ⟨_, hd2lines⟩)
    refine ⟨l :: ls, by simp [hls]; exact hstore.1, ?_⟩
    rw [fileOf, TextDocument.loadLoop]
    simp only [hg, Bool.not_false, Bool.and_self, if_true, cstrOf_of_not_mem c hnul, happ]
    rw [← hd2, hrun, hd2lines, hd2count]
    congr 1
    by_cases hnil : ls = []
    · subst hnil
      simp
    · simp [hnil, List.dropLast_concat]
      omega

theorem TextDocument.replaceInLine_overread {l : Line} {c : List Char} (h : l.Stores c)
    (r : List Char) (p : Nat) (hp : p + r.length ≤ c.length)
    (hsrc : l.capacity < (c.length : Int) + (c.length - (p + r.length) + 1)) :
    TextDocument.replaceInLine l (p : Int) r = none := by
  have hl : l.length = (c.length : Int) := h.2.1
  have hcap : l.capacity = (l.text.length : Int) := h.2.2
  have hlt := cstr_length_lt h.1
  have hens := Line.ensureCapacity_of_le l ((p : Int) + (r.length : Int) + 1) (by omega)
  have hstr := h.cstrAt p (by omega)
  have hmv : memmove l.text ((p : Int) + (r.length : Int)) ((p : Int) + ((c.drop p).length : Int))
      (l.length - ((p : Int) + (r.length : Int)) + 1) = none := by
    unfold memmove
    rw [if_neg]
    simp only [List.length_drop]
    omega
  unfold TextDocument.replaceInLine
  simp only [hens, hstr, hmv]

theorem TextDocument.replaceInLine_negative_count {l : Line} {c : List Char} (h : l.Stores c)
    (r : List Char) (p : Nat) (hp : p ≤ c.length) (hlong : c.length + 1 < p + r.length) :
    TextDocument.replaceInLine l (p : Int) r = none := by
  obtain ⟨l1, hens, h1, -, -⟩ := Line.ensureCapacity_stores h ((p : Int) + (r.length : Int) + 1)
  have hl : l1.length = (c.length : Int) := h1.2.1
  have hstr := h1.cstrAt p hp
  have hmv : memmove l1.text ((p : Int) + (r.length : Int)) ((p : Int) + ((c.drop p).length : Int))
      (l1.length - ((p : Int) + (r.length : Int)) + 1) = none := by
    unfold memmove
    rw [if_neg]
    omega
  unfold TextDocument.replaceInLine
  simp only [hens, hstr, hmv]

/-! ## The claims -/

/-- C1, as the code behaves: on a freshly created `Line` the first `append` of
a string of ten or more characters has no defined result. `Line()` leaves the
block unwritten and `ensureCapacity`, which must grow it, copies out of it
with `strcpy`. The claim asks for a line holding the string. -/
theorem append_on_fresh_line_undefined (s : List Char) (h : 10 ≤ s.length) :
    Line.new.append s = none :=
  Line.new_append_undefined s h

theorem append_on_fresh_line_undefined_witness :
    Line.new.append "0123456789".toList = none :=
  append_on_fresh_line_undefined "0123456789".toList (by decide)

/-- The search on terminated lines. For a document whose lines hold the strings
`contents`, and a non-empty pattern, `searchSubstring` runs to completion (any fuel above the
longest line) and prints, line by line in increasing line number, exactly the
offsets of the leftmost non-overlapping scan of each line; for `"ab"` on the
single line `"ababab"` these are `0, 2, 4`. The `int` value that
`nullptr - text` takes on the platform is assumed to lie outside
`[0, textLength)`, as the loop's own range test presumes. -/
theorem searchSubstring_leftmost_nonoverlapping (d : TextDocument)
    (contents : List (List Char)) (pat : List Char) (fuel : Nat) (nullDiff : Int → Int)
    (hpat : pat ≠ [])
    (hd : d.lines.map Line.content = contents.map some)
    (hfuel : ∀ c ∈ contents, c.length < fuel)
    (hnull : ∀ (j : Nat) (c : List Char), contents[j]? = some c →
      ¬ (0 ≤ nullDiff j ∧ nullDiff j < c.length)) :
    d.searchSubstring fuel nullDiff pat = .found (expectedFrom pat contents 0) ∧
      (contents = ["ababab".toList] → pat = "ab".toList →
        d.searchSubstring fuel nullDiff pat = .found [(0, 0), (0, 2), (0, 4)]) := by
  have hmain : d.searchSubstring fuel nullDiff pat = .found (expectedFrom pat contents 0) :=
    searchFrom_expected fuel nullDiff pat hpat d.lines contents 0 hd hfuel
      (fun j c hj => by simpa using hnull j c hj)
  refine ⟨hmain, ?_⟩
  intro hc hp
  rw [hmain, hc, hp]
  decide

theorem searchSubstring_leftmost_nonoverlapping_witness :
    (TextDocument.single "ababab".toList 3).searchSubstring 7 (fun _ => -1) "ab".toList
      = .found [(0, 0), (0, 2), (0, 4)] :=
  (searchSubstring_leftmost_nonoverlapping (TextDocument.single "ababab".toList 3)
    ["ababab".toList] "ab".toList 7 (fun _ => -1) (by decide) (by decide) (by decide)
    (fun _ _ _ h => absurd h.1 (show ¬ (0 : Int) ≤ -1 by decide))).2 rfl rfl

/-- C4: with `lineIndex` at or beyond the number of lines,
`TextDocument::insertSubstring` and `TextDocument::replaceSubstring` report
the invalid line number and return the document as it was. -/
theorem invalid_line_index_unchanged (d : TextDocument) (lineNum pos : Int) (s : List Char)
    (h : (d.lines.length : Int) ≤ lineNum) :
    d.insertSubstring lineNum pos s = some (d, Status.invalidLineNumber) ∧
      d.replaceSubstring lineNum pos s = some (d, Status.invalidLineNumber) := by
  have hw := walk_none d.lines 0 lineNum 0 (by omega)
  constructor
  · unfold TextDocument.insertSubstring
    simp only [hw]
  · unfold TextDocument.replaceSubstring
    simp only [hw]

theorem invalid_line_index_unchanged_witness :
    (TextDocument.single "ab".toList 7).insertSubstring 1 0 "x".toList
        = some (TextDocument.single "ab".toList 7, Status.invalidLineNumber) ∧
      (TextDocument.single "ab".toList 7).replaceSubstring 1 0 "x".toList
        = some (TextDocument.single "ab".toList 7, Status.invalidLineNumber) :=
  invalid_line_index_unchanged (TextDocument.single "ab".toList 7) 1 0 "x".toList (by decide)

/-- C5, as the code behaves: from an empty document the scenario
`appendText(a); startNewLine(); appendText(b)` has no defined result for
`a = "0123456789"` (the first `appendText` already grows the unwritten block
of a fresh line), where the claim asks for two lines and the output
`a`, newline, `b`, newline. For `a = "Hello"`, `b = "World"` the scenario does
give two lines and `print` writes `Hello`, newline, `World`, newline. -/
theorem two_line_scenario_undefined_for_long_text :
    TextDocument.twoLines "0123456789".toList "World".toList = none ∧
      TextDocument.new.appendText "0123456789".toList = none ∧
      (TextDocument.twoLines "Hello".toList "World".toList).map
          (fun d => d.lines.map Line.content)
        = some [some "Hello".toList, some "World".toList] ∧
      (TextDocument.twoLines "Hello".toList "World".toList).bind TextDocument.print
        = some "Hello\nWorld\n".toList := by
  decide

/-- C6, counterexample: the document that `appendText("a")` builds has one
line and `lineCount` 0; saving it and loading the file gives a document with
two lines and `lineCount` 1. Loading a file whose line has ten characters has
no defined result (the growth of a fresh line, as in C1). -/
theorem save_load_one_line_gives_two :
    TextDocument.new.appendText "a".toList = some (TextDocument.single "a".toList 8) ∧
      (TextDocument.single "a".toList 8).lines.map Line.content = [some "a".toList] ∧
      (TextDocument.single "a".toList 8).saveToFile true = some (.written "a\n".toList) ∧
      (TextDocument.new.loadFromFile (some "a\n".toList)).map
          (fun r => (r.1.lines.length, r.1.lineCount)) = some (2, 1) ∧
      (TextDocument.single "a".toList 8).lines.length = 1 ∧
      (TextDocument.single "a".toList 8).lineCount = 0 ∧
      TextDocument.new.loadFromFile (some "0123456789\n".toList) = none := by
  decide

/-- C6, amended: for a document whose lines hold the strings `cs`, none with a
newline and none longer than 9 characters, `saveToFile` writes one line per
string and `loadFromFile` of that file (into any document, which it clears)
succeeds with `lineCount` equal to the number of strings; the loaded chain is
empty when `cs` is empty, and otherwise holds the strings of `cs` in order
followed by one extra freshly created line. -/
theorem save_load_contents (D E : TextDocument) (cs : List (List Char))
    (hD : D.lines.map Line.content = cs.map some)
    (hcs : ∀ c ∈ cs, c.length ≤ 9 ∧ '\n' ∉ c) :
    ∃ D2, D.saveToFile true = some (.written (fileOf cs)) ∧
      E.loadFromFile (some (fileOf cs)) = some (D2, Status.ok) ∧
      D2.lineCount = cs.length ∧
      (cs = [] → D2.lines = []) ∧
      (cs ≠ [] → ∃ ls, D2.lines = ls ++ [Line.new] ∧ ls.map Line.content = cs.map some) := by
  have hsave : D.saveToFile true = some (.written (fileOf cs)) := by
    unfold TextDocument.saveToFile
    simp [writeLines_contents D.lines cs hD]
  have hall : ∀ c ∈ cs, c.length ≤ 9 ∧ '\n' ∉ c ∧ NUL ∉ c := by
    intro c hc
    have hmem : some c ∈ D.lines.map Line.content := by
      rw [hD]; exact List.mem_map_of_mem _ hc
    obtain ⟨l, -, hl⟩ := List.mem_map.1 hmem
    exact ⟨(hcs c hc).1, (hcs c hc).2, (cstr_some hl).1⟩
  obtain ⟨ls, hls, hrun⟩ := loadLoop_fileOf cs hall ((fileOf cs).length + 1) E.clear
    (by omega) (Or.inl rfl)
  have hlen : ls.length = cs.length := by
    have := congrArg List.length hls
    simpa using this
  refine ⟨{ lines := if ls = [] then E.clear.lines
                      else E.clear.lines.dropLast ++ ls ++ [Line.new],
             lineCount := E.clear.lineCount + ls.length }, hsave, ?_, ?_, ?_, ?_⟩
  · unfold TextDocument.loadFromFile
    simp only [hrun]
  · show E.clear.lineCount + (ls.length : Int) = _
    rw [hlen]
    show (0 : Int) + _ = _
    simp
  · intro hnil
    have : ls = [] := List.length_eq_zero.1 (by rw [hlen, hnil]; rfl)
    simp [this, TextDocument.clear]
  · intro hne
    have : ls ≠ [] := fun h0 => hne (List.length_eq_zero.1 (by rw [← hlen, h0]; rfl))
    refine ⟨ls, ?_, hls⟩
    simp [this, TextDocument.clear]

theorem save_load_contents_witness :
    ∃ D2, (TextDocument.single "a".toList 8).saveToFile true = some (.written "a\n".toList) ∧
      TextDocument.new.loadFromFile (some "a\n".toList) = some (D2, Status.ok) ∧
      D2.lineCount = 1 ∧
      ∃ ls, D2.lines = ls ++ [Line.new] ∧ ls.map Line.content = [some "a".toList] := by
  obtain ⟨D2, h1, h2, h3, -, h5⟩ := save_load_contents (TextDocument.single "a".toList 8)
    TextDocument.new ["a".toList] (by decide) (by decide)
  exact ⟨D2, h1, h2, h3, h5 (by decide)⟩

/-- C7, as the code behaves: on a valid line holding `c`, for a replacement
that ends before the old end, `TextDocument::replaceSubstring` has no defined
result whenever `capacity < 2·length − pos − repLen + 1`: its `memmove` reads
`length − pos − repLen + 1` bytes starting at `text + length`, past the end of
the block. The claim asks for content `take pos c ++ r` there as well. -/
theorem replace_shorter_reads_past_block (d : TextDocument) (i : Nat) (l : Line)
    (c r : List Char) (pos : Int) (hi : d.lines[i]? = some l) (h : l.Stores c)
    (h0 : 0 ≤ pos) (hlt : pos + r.length < c.length)
    (hcap : l.capacity < (c.length : Int) + (c.length - (pos + r.length) + 1)) :
    d.replaceSubstring (i : Int) pos r = none := by
  obtain ⟨p, rfl⟩ : ∃ p : Nat, pos = (p : Int) := ⟨pos.toNat, by omega⟩
  exact TextDocument.replaceSubstring_undefined d i l _ r hi
    (TextDocument.replaceInLine_overread h r p (by omega) hcap)

theorem replace_shorter_reads_past_block_witness :
    (TextDocument.new.appendText "abcdefghi".toList)
        = some (TextDocument.single "abcdefghi".toList 0) ∧
      (TextDocument.single "abcdefghi".toList 0).replaceSubstring 0 0 "x".toList = none :=
  ⟨by decide,
    replace_shorter_reads_past_block (TextDocument.single "abcdefghi".toList 0) 0
      (Line.holding "abcdefghi".toList 0) "abcdefghi".toList "x".toList 0
      (by decide) (by decide) (by decide) (by decide) (by decide)⟩

/-- C8, counterexample: on the valid line `"ab"`, `Line::replaceSubstring(0,
"xyz")` leaves the two characters `"xy"`, not the three characters `"xyz"`,
and the length field stays 2. -/
theorem line_replace_longer_is_clamped :
    (Line.holding "ab".toList 7).Stores "ab".toList ∧
      ((Line.holding "ab".toList 7).replaceSubstring 0 "xyz".toList).bind Line.content
        = some "xy".toList ∧
      ((Line.holding "ab".toList 7).replaceSubstring 0 "xyz".toList).bind Line.content
        ≠ some "xyz".toList ∧
      ((Line.holding "ab".toList 7).replaceSubstring 0 "xyz".toList).map Line.length
        = some 2 := by
  decide

/-- C8, amended: on a valid line holding `c`, for `0 ≤ pos ≤ length(c)` and a
replacement `r` with `pos + length(r) > length(c)` that still fits the block
(`pos + length(r) ≤ capacity`), `Line::replaceSubstring(pos, r)` leaves a valid
line of exactly `length(c)` characters: the first `pos` characters of `c`
followed by the first `length(c) − pos` characters of `r`; the length field and
the capacity are unchanged. -/
theorem line_replace_longer_keeps_length (l : Line) (c r : List Char) (pos : Int)
    (h : l.Stores c) (hr : NUL ∉ r) (h0 : 0 ≤ pos) (h1 : pos ≤ c.length)
    (hlong : pos + r.length > c.length) (hfit : pos + r.length ≤ l.capacity) :
    ∃ l2, l.replaceSubstring pos r = some l2 ∧
      l2.content = some (c.take pos.toNat ++ r.take (c.length - pos.toNat)) ∧
      (c.take pos.toNat ++ r.take (c.length - pos.toNat)).length = c.length ∧
      l2.Stores (c.take pos.toNat ++ r.take (c.length - pos.toNat)) ∧
      l2.length = l.length ∧ l2.capacity = l.capacity := by
  obtain ⟨p, rfl⟩ : ∃ p : Nat, pos = (p : Int) := ⟨pos.toNat, by omega⟩
  have hp : p ≤ c.length := by omega
  obtain ⟨l2, hrep, hcont, hlen, hcap, htl⟩ := Line.replaceSubstring_stores h r hr p hp hfit
  have hsize : (c.take p ++ r.take (c.length - p)).length = c.length := by
    simp
    omega
  simp only [Int.toNat_ofNat]
  refine ⟨l2, hrep, hcont, hsize, ⟨hcont, ?_, ?_⟩, hlen, hcap⟩
  · rw [hlen, h.2.1, hsize]
  · rw [hcap, htl]
    exact h.2.2

theorem line_replace_longer_keeps_length_witness :
    ∃ l2, (Line.holding "ab".toList 7).replaceSubstring 0 "xyz".toList = some l2 ∧
      l2.content = some "xy".toList ∧ l2.length = 2 := by
  obtain ⟨l2, h1, h2, -, -, h5, -⟩ := line_replace_longer_keeps_length
    (Line.holding "ab".toList 7) "ab".toList "xyz".toList 0
    (by decide) (by decide) (by decide) (by decide) (by decide) (by decide)
  exact ⟨l2, h1, h2.trans (by decide), h5.trans (by decide)⟩

/-- C9, as the code behaves: on the document with the one line `"ab"`,
`replaceSubstring(0, 0, "abcd")` has no defined result: the byte count of its
`memmove` is `length − pos − repLen + 1 = −1`, passed as a `size_t`. With
`"abc"` the count is 0, the call returns with length field 3, and the three
characters are followed by an unwritten byte, so the line has no terminated
content and `print` is undefined. The claim asks for a terminated content of
`pos + length(r)` characters in both cases. -/
theorem replace_longer_unterminated :
    TextDocument.new.appendText "ab".toList = some (TextDocument.single "ab".toList 7) ∧
      (TextDocument.single "ab".toList 7).replaceSubstring 0 0 "abcd".toList = none ∧
      ((TextDocument.single "ab".toList 7).replaceSubstring 0 0 "abc".toList).map
          (fun r => r.1.lines.map Line.length) = some [3] ∧
      ((TextDocument.single "ab".toList 7).replaceSubstring 0 0 "abc".toList).map
          (fun r => r.1.lines.map Line.content) = some [none] ∧
      ((TextDocument.single "ab".toList 7).replaceSubstring 0 0 "abc".toList).bind
          (fun r => r.1.print) = none := by
  decide

/-- C10, counterexample: on the document with the one valid line
`"abcdefghi"` (length 9, capacity 10), `TextDocument::replaceSubstring(0, 9,
"x")` grows the block and sets the length field to `pos + length(r)`: length
10, capacity 22. `Line::replaceSubstring(9, "x")` on the same line stops at
the old length and never grows the block: content `"abcdefghi"`, length 9,
capacity 10. -/
theorem document_replace_is_not_line_replace :
    (Line.holding "abcdefghi".toList 0).Stores "abcdefghi".toList ∧
      ((TextDocument.single "abcdefghi".toList 0).replaceSubstring 0 9 "x".toList).map
          (fun r => r.1.lines.map (fun l => (l.length, l.capacity))) = some [(10, 22)] ∧
      ((Line.holding "abcdefghi".toList 0).replaceSubstring 9 "x".toList).map
          (fun l => (l.content, l.length, l.capacity))
        = some (some "abcdefghi".toList, 9, 10) ∧
      ((TextDocument.single "abcdefghi".toList 0).replaceSubstring 0 9 "x".toList).map
          (fun r => r.1.lines)
        ≠ ((Line.holding "abcdefghi".toList 0).replaceSubstring 9 "x".toList).map
            (fun l => [l]) := by
  decide

/-- C10, amended: `TextDocument::replaceSubstring` runs its own code on the
addressed line. For a valid line index, a valid line holding `c`, `0 ≤ pos`,
`pos + length(r) ≤ length(c)` and the bytes its `memmove` reads inside the
block, the addressed line ends with the same content as after
`Line::replaceSubstring(pos, r)`, namely `take pos c ++ r`, with the same
capacity, and with length field `pos + length(r)`; the other lines and
`lineCount` are unchanged. -/
theorem document_replace_matches_line_content (d : TextDocument) (i : Nat) (l : Line)
    (c r : List Char) (pos : Int) (hi : d.lines[i]? = some l) (h : l.Stores c)
    (hr : NUL ∉ r) (h0 : 0 ≤ pos) (hle : pos + r.length ≤ c.length)
    (hsrc : (c.length : Int) + (c.length - (pos + r.length) + 1) ≤ l.capacity) :
    ∃ l2 l3, d.replaceSubstring (i : Int) pos r
        = some ({ d with lines := d.lines.set i l2 }, Status.ok) ∧
      l.replaceSubstring pos r = some l3 ∧
      l2.content = some (c.take pos.toNat ++ r) ∧ l3.content = l2.content ∧
      l3.capacity = l2.capacity ∧
      l2.length = pos + r.length := by
  obtain ⟨p, rfl⟩ : ∃ p : Nat, pos = (p : Int) := ⟨pos.toNat, by omega⟩
  have hp : p + r.length ≤ c.length := by omega
  obtain ⟨l2, hdoc, hst, hcap2⟩ := TextDocument.replaceInLine_stores h r hr p hp hsrc
  have hlt := h.length_lt
  obtain ⟨l3, hline, hcont3, -, hcap3, -⟩ :=
    Line.replaceSubstring_stores h r hr p (by omega) (by omega)
  have htake : r.take (c.length - p) = r := List.take_of_length_le (by omega)
  rw [htake] at hcont3
  simp only [Int.toNat_ofNat]
  refine ⟨l2, l3, TextDocument.replaceSubstring_at d i l l2 _ r hi hdoc, hline, hst.1,
    hcont3.trans hst.1.symm, by rw [hcap3, hcap2], ?_⟩
  rw [hst.2.1]
  simp
  omega

theorem document_replace_matches_line_content_witness :
    ∃ l2 l3, (TextDocument.single "abc".toList 6).replaceSubstring 0 0 "x".toList
        = some ({ lines := [l2], lineCount := 0 }, Status.ok) ∧
      (Line.holding "abc".toList 6).replaceSubstring 0 "x".toList = some l3 ∧
      l2.content = some "x".toList ∧ l3.content = some "x".toList ∧
      l3.capacity = l2.capacity ∧ l2.length = 1 := by
  obtain ⟨l2, l3, h1, h2, h3, h4, h5, h6⟩ := document_replace_matches_line_content
    (TextDocument.single "abc".toList 6) 0 (Line.holding "abc".toList 6) "abc".toList
    "x".toList 0 (by decide) (by decide) (by decide) (by decide) (by decide) (by decide)
  exact ⟨l2, l3, h1, h2, h3.trans (by decide), h4.trans (h3.trans (by decide)),
    h5, h6.trans (by decide)⟩

/-! ## The capacity invariant -/

theorem memWrite_some {buf : List Cell} {off : Int} {data t : List Cell}
    (h : memWrite buf off data = some t) :
    0 ≤ off ∧ off + data.length ≤ buf.length ∧ t.length = buf.length := by
  unfold memWrite at h
  split_ifs at h with hc
  obtain ⟨h0, h1⟩ := hc
  refine ⟨h0, h1, ?_⟩
  simp only [Option.some.injEq] at h
  subst h
  simp
  omega

theorem Line.ensureCapacity_some {l l1 : Line} {minCapacity : Int}
    (h : l.ensureCapacity minCapacity = some l1) :
    minCapacity ≤ l1.capacity ∧ l1.length = l.length ∧ l.capacity ≤ l1.capacity := by
  unfold Line.ensureCapacity at h
  split_ifs at h with hm
  · try dsimp only at h
    split at h
    · simp at h
    · rename_i c hc
      try dsimp only at h
      split at h
      · simp at h
      · rename_i t ht
        simp only [Option.some.injEq] at h
        subst h
        obtain ⟨-, hfit, -⟩ := memWrite_some ht
        simp only [List.length_append, List.length_map, List.length_singleton,
          List.length_replicate] at hfit
        refine ⟨?_, rfl, ?_⟩
        · show minCapacity ≤ minCapacity * 2
          omega
        · show l.capacity ≤ minCapacity * 2
          omega
  · simp only [Option.some.injEq] at h
    subst h
    exact ⟨by omega, rfl, le_refl _⟩

theorem Line.append_capacityOk {l l2 : Line} {s : List Char} (h : l.append s = some l2) :
    l2.CapacityOk := by
  unfold Line.append at h
  try dsimp only at h
  split at h
  · simp at h
  · rename_i l1 he
    try dsimp only at h
    split at h
    · simp at h
    · simp only [Option.some.injEq] at h
      subst h
      obtain ⟨hm, hl, -⟩ := Line.ensureCapacity_some he
      show l1.capacity ≥ l1.length + (s.length : Int) + 1
      omega

theorem Line.insertSubstring_capacityOk {l l2 : Line} {pos : Int} {s : List Char}
    (h : l.insertSubstring pos s = some l2) : l2.CapacityOk := by
  unfold Line.insertSubstring at h
  try dsimp only at h
  split at h
  · simp at h
  · rename_i l1 he
    try dsimp only at h
    split at h
    · simp at h
    · try dsimp only at h
      split at h
      · simp at h
      · simp only [Option.some.injEq] at h
        subst h
        obtain ⟨hm, hl, -⟩ := Line.ensureCapacity_some he
        show l1.capacity ≥ l1.length + (s.length : Int) + 1
        omega

theorem Line.replaceSubstring_fields {l l2 : Line} {pos : Int} {r : List Char}
    (h : l.replaceSubstring pos r = some l2) :
    l2.length = l.length ∧ l2.capacity = l.capacity := by
  unfold Line.replaceSubstring at h
  try dsimp only at h
  split at h
  · simp at h
  · try dsimp only at h
    split at h
    · simp at h
    · simp only [Option.some.injEq] at h
      subst h
      exact ⟨rfl, rfl⟩

theorem TextDocument.replaceInLine_capacityOk {l l2 : Line} {pos : Int} {r : List Char}
    (h : TextDocument.replaceInLine l pos r = some l2) : l2.CapacityOk := by
  unfold TextDocument.replaceInLine at h
  try dsimp only at h
  split at h
  · simp at h
  · rename_i cur he
    try dsimp only at h
    split at h
    · simp at h
    · try dsimp only at h
      split at h
      · simp at h
      · try dsimp only at h
        split at h
        · simp at h
        · simp only [Option.some.injEq] at h
          subst h
          obtain ⟨hm, -, -⟩ := Line.ensureCapacity_some he
          show cur.capacity ≥ pos + (r.length : Int) + 1
          omega

theorem TextDocument.replaceSubstring_lines {d d2 : TextDocument} {lineNum pos : Int}
    {r : List Char} {st : Status} (h : d.replaceSubstring lineNum pos r = some (d2, st)) :
    d2 = d ∨ ∃ i l l2, d.lines[i]? = some l ∧ TextDocument.replaceInLine l pos r = some l2 ∧
      d2 = { d with lines := d.lines.set i l2 } := by
  unfold TextDocument.replaceSubstring at h
  try dsimp only at h
  split at h
  · simp only [Option.some.injEq, Prod.mk.injEq] at h
    exact Or.inl h.1.symm
  · rename_i i hw
    try dsimp only at h
    split at h
    · simp at h
    · rename_i current hi
      try dsimp only at h
      split at h
      · simp at h
      · rename_i l2 hr
        simp only [Option.some.injEq, Prod.mk.injEq] at h
        exact Or.inr ⟨i, current, l2, hi, hr, h.1.symm⟩

/-! ## Growth of the block -/

theorem Line.ensureCapacity_capacity {l l1 : Line} {minCapacity : Int}
    (h : l.ensureCapacity minCapacity = some l1) :
    l1.capacity = if minCapacity > l.capacity then 2 * minCapacity else l.capacity := by
  unfold Line.ensureCapacity at h
  split_ifs at h with hm
  · try dsimp only at h
    split at h
    · simp at h
    · try dsimp only at h
      split at h
      · simp at h
      · simp only [Option.some.injEq] at h
        subst h
        rw [if_pos hm]
        show minCapacity * 2 = 2 * minCapacity
        omega
  · simp only [Option.some.injEq] at h
    subst h
    rw [if_neg hm]

theorem Line.append_capacity {l l2 : Line} {s : List Char} (h : l.append s = some l2) :
    l2.capacity = if l.length + (s.length : Int) + 1 > l.capacity
      then 2 * (l.length + (s.length : Int) + 1) else l.capacity := by
  unfold Line.append at h
  try dsimp only at h
  split at h
  · simp at h
  · rename_i l1 he
    try dsimp only at h
    split at h
    · simp at h
    · simp only [Option.some.injEq] at h
      subst h
      show l1.capacity = _
      exact Line.ensureCapacity_capacity he

theorem Line.replaceSubstring_overflow {l : Line} {c : List Char} (h : l.Stores c)
    (r : List Char) (pos : Int) (hover : l.capacity < pos + r.length) :
    l.replaceSubstring pos r = none := by
  have hcap : l.capacity = (l.text.length : Int) := h.2.2
  have hw : memcpy l.text pos r = none := by
    unfold memcpy
    apply memWrite_none_of_lt
    simp only [List.length_map]
    omega
  unfold Line.replaceSubstring
  simp only [hw]

/-! ## Locating a line with a negative line number -/

theorem walk_negative (lines : List Line) (lineNum : Int) (h : lineNum < 0) :
    walk lines 0 lineNum 0 = walk lines 0 0 0 := by
  cases lines with
  | nil => rfl
  | cons l rest =>
    unfold walk
    rw [if_neg (by omega), if_neg (by omega)]

theorem TextDocument.insertSubstring_not_invalid (d : TextDocument) (pos : Int) (s : List Char)
    (hne : d.lines ≠ []) : d.insertSubstring 0 pos s ≠ some (d, Status.invalidLineNumber) := by
  obtain ⟨l, rest, hl⟩ := List.exists_cons_of_ne_nil hne
  unfold TextDocument.insertSubstring
  have hw : walk d.lines 0 0 0 = some 0 := by rw [hl]; rfl
  have hi : d.lines[0]? = some l := by rw [hl]; simp
  simp only [hw, hi]
  split <;> simp

theorem TextDocument.replaceSubstring_not_invalid (d : TextDocument) (pos : Int) (s : List Char)
    (hne : d.lines ≠ []) : d.replaceSubstring 0 pos s ≠ some (d, Status.invalidLineNumber) := by
  obtain ⟨l, rest, hl⟩ := List.exists_cons_of_ne_nil hne
  unfold TextDocument.replaceSubstring
  have hw : walk d.lines 0 0 0 = some 0 := by rw [hl]; rfl
  have hi : d.lines[0]? = some l := by rw [hl]; simp
  simp only [hw, hi]
  split <;> simp

/-! ## The search with an empty pattern -/

theorem strstr_nil_of_ne_nil {hay : List Char} (h : hay ≠ []) : strstr hay [] = some 0 := by
  cases hay with
  | nil => exact absurd rfl h
  | cons a t => rfl

/-- With the empty pattern the inner loop never leaves a position inside the
line: every amount of fuel runs out. -/
theorem searchLoop_empty_pattern (nd : Int) (c : List Char) (ln : Int) :
    ∀ (fuel p : Nat), p < c.length → searchLoop nd c [] ln fuel (p : Int) = .unfinished := by
  intro fuel
  induction fuel with
  | zero => intro p _; rfl
  | succ fuel ih =>
    intro p hp
    have hdrop : c.drop p ≠ [] := by
      intro h0
      have := congrArg List.length h0
      simp at this
      omega
    have hlt : (p : Int) < (c.length : Int) := by omega
    have hin : ((p : Int) + ((0 : Nat) : Int) ≥ 0 ∧ (p : Int) + ((0 : Nat) : Int) < (c.length : Int)) := by
      constructor <;> omega
    unfold searchLoop
    simp only [hlt, if_true, show ¬ ((p : Int) < 0) by omega, if_false, Int.toNat_ofNat,
      strstr_nil_of_ne_nil hdrop, hin, and_self, List.length_nil]
    have e : (p : Int) + ((0 : Nat) : Int) + ((0 : Nat) : Int) = (p : Int) := by simp
    rw [e, ih p hp]

theorem searchLoop_nil_line (nd : Int) (pat : List Char) (ln : Int) (fuel : Nat) :
    searchLoop nd [] pat ln (fuel + 1) 0 = .found [] := by
  unfold searchLoop
  simp

theorem searchFrom_empty_pattern (fuel : Nat) (nd : Int → Int) :
    ∀ (lines : List Line) (contents : List (List Char)) (lineNum : Int),
      lines.map Line.content = contents.map some →
      (∃ c ∈ contents, c ≠ []) →
      searchFrom fuel nd [] lines lineNum = .unfinished := by
  intro lines
  induction lines with
  | nil =>
    intro contents lineNum hc hex
    cases contents with
    | nil => obtain ⟨c, hmem, -⟩ := hex; simp at hmem
    | cons c cs => simp at hc
  | cons l rest ih =>
    intro contents lineNum hc hex
    cases contents with
    | nil => simp at hc
    | cons c cs =>
      simp only [List.map_cons, List.cons.injEq] at hc
      obtain ⟨hl, hrest⟩ := hc
      have hlc : cstr l.text = some c := hl
      unfold searchFrom
      simp only [hlc]
      by_cases hne : c = []
      · subst hne
        have hex2 : ∃ c ∈ cs, c ≠ [] := by
          obtain ⟨c1, hmem, hc1⟩ := hex
          rcases List.mem_cons.1 hmem with h1 | h1
          · exact absurd h1 hc1
          · exact ⟨c1, h1, hc1⟩
        cases fuel with
        | zero => rfl
        | succ f =>
          rw [searchLoop_nil_line, ih cs (lineNum + 1) hrest hex2]
      · have hpos : 0 < c.length := List.length_pos.2 hne
        have := searchLoop_empty_pattern (nd lineNum) c lineNum fuel 0 hpos
        rw [show ((0 : Int)) = ((0 : Nat) : Int) from rfl, this]

/-! ## Loading a line longer than the buffer -/

theorem getline_long (rest : List Char) :
    ∀ (room : Nat) (c : List Char) (extracted : Nat), room < c.length → '\n' ∉ c →
      (getline (c ++ rest) room extracted).failbit = true ∧
      (getline (c ++ rest) room extracted).eofbit = false := by
  intro room
  induction room with
  | zero =>
    intro c extracted hlen hnl
    cases c with
    | nil => simp at hlen
    | cons a t =>
      have ha : a ≠ '\n' := fun h => hnl (h ▸ List.mem_cons_self _ _)
      rw [List.cons_append, getline]
      simp [ha]
  | succ room ih =>
    intro c extracted hlen hnl
    cases c with
    | nil => simp at hlen
    | cons a t =>
      have ha : a ≠ '\n' := fun h => hnl (h ▸ List.mem_cons_self _ _)
      have ht : '\n' ∉ t := fun h => hnl (List.mem_cons_of_mem _ h)
      simp only [List.length_cons] at hlen
      have := ih t (extracted + 1) (by omega) ht
      rw [List.cons_append, getline]
      simp only [ha, if_false, Nat.add_one_ne_zero, Nat.add_sub_cancel]
      exact this

theorem loadLoop_long_first_line (fuel : Nat) (c rest : List Char) (d : TextDocument)
    (hlen : LINE_LENGTH ≤ c.length) (hnl : '\n' ∉ c) :
    TextDocument.loadLoop (fuel + 1) (c ++ rest) d = some d := by
  obtain ⟨hf, -⟩ := getline_long rest (LINE_LENGTH - 1) c 0
    (by show 63 < c.length; exact hlen) hnl
  unfold TextDocument.loadLoop
  simp [hf]

/-! ## What the scan reports -/

theorem firstAtOrAfter_least {c pat : List Char} {start m : Nat}
    (h : firstAtOrAfter c pat start = some m) :
    ∀ o, start ≤ o → o < m → ¬ OccursAt c pat o := by
  unfold firstAtOrAfter at h
  rw [List.find?_range'_eq_some] at h
  intro o h1 h2 hocc
  have := h.2.2 o h1 h2
  simp [hocc] at this

theorem firstAtOrAfter_none {c pat : List Char} {start : Nat}
    (h : firstAtOrAfter c pat start = none) :
    ∀ o, start ≤ o → o ≤ c.length → ¬ OccursAt c pat o := by
  unfold firstAtOrAfter at h
  rw [List.find?_range'_eq_none] at h
  intro o h1 h2 hocc
  have := h o h1 (by omega)
  simp [hocc] at this

theorem scanFrom_occurs {c pat : List Char} :
    ∀ (n p m : Nat), m ∈ scanFrom c pat n p → p ≤ m ∧ OccursAt c pat m := by
  intro n
  induction n with
  | zero => intro p m h; simp [scanFrom] at h
  | succ n ih =>
    intro p m h
    unfold scanFrom at h
    cases hf : firstAtOrAfter c pat p with
    | none => simp [hf] at h
    | some k =>
      simp only [hf, List.mem_cons] at h
      obtain ⟨h1, -, h3⟩ := firstAtOrAfter_some hf
      rcases h with rfl | h
      · exact ⟨h1, h3⟩
      · obtain ⟨h4, h5⟩ := ih _ _ h
        exact ⟨by omega, h5⟩

theorem scanFrom_covers {c pat : List Char} (hpat : pat ≠ []) :
    ∀ (n p : Nat), c.length + 1 ≤ n + p → ∀ o, p ≤ o → OccursAt c pat o →
      o ∈ scanFrom c pat n p ∨ ∃ m ∈ scanFrom c pat n p, m < o ∧ o < m + pat.length := by
  have hpl : 0 < pat.length := List.length_pos.2 hpat
  have hbound : ∀ o, OccursAt c pat o → o + pat.length ≤ c.length := by
    intro o ho
    rcases ho.bound with h | h
    · exact h
    · exact absurd h hpat
  intro n
  induction n with
  | zero =>
    intro p hn o ho hocc
    have := hbound o hocc
    omega
  | succ n ih =>
    intro p hn o ho hocc
    have hb := hbound o hocc
    unfold scanFrom
    cases hf : firstAtOrAfter c pat p with
    | none => exact absurd hocc (firstAtOrAfter_none hf o ho (by omega))
    | some k =>
      obtain ⟨h1, -, -⟩ := firstAtOrAfter_some hf
      have hko : k ≤ o := by
        by_contra hlt
        exact firstAtOrAfter_least hf o ho (by omega) hocc
      simp only [List.mem_cons]
      by_cases heq : o = k
      · exact Or.inl (Or.inl heq)
      · by_cases hov : o < k + pat.length
        · exact Or.inr ⟨k, Or.inl rfl, by omega, hov⟩
        · rcases ih (k + pat.length) (by omega) o (by omega) hocc with h | ⟨m, hm, h2, h3⟩
          · exact Or.inl (Or.inr h)
          · exact Or.inr ⟨m, Or.inr hm, h2, h3⟩

theorem mem_expectedFrom {pat : List Char} :
    ∀ (contents : List (List Char)) (ln a b : Int),
      (a, b) ∈ expectedFrom pat contents ln ↔
        ∃ (j : Nat) (c : List Char), contents[j]? = some c ∧ a = ln + j ∧
          ∃ k ∈ nonOverlapping c pat, b = (k : Int) := by
  intro contents
  induction contents with
  | nil => intro ln a b; simp [expectedFrom]
  | cons c cs ih =>
    intro ln a b
    unfold expectedFrom
    rw [List.mem_append, ih]
    constructor
    · rintro (h | ⟨j, c1, hj, ha, hk⟩)
      · obtain ⟨k, hk, hkeq⟩ := List.mem_map.1 h
        simp only [Prod.mk.injEq] at hkeq
        exact ⟨0, c, by simp, by simp [hkeq.1], k, hk, hkeq.2.symm⟩
      · exact ⟨j + 1, c1, by simpa using hj, by rw [ha]; push_cast; ring, hk⟩
    · rintro ⟨j, c1, hj, ha, k, hk, hb⟩
      cases j with
      | zero =>
        simp only [List.getElem?_cons_zero, Option.some.injEq] at hj
        subst hj
        left
        exact List.mem_map.2 ⟨k, hk, by simp [ha, hb]⟩
      | succ j =>
        right
        exact ⟨j, c1, by simpa using hj, by rw [ha]; push_cast; ring, k, hk, hb⟩

/-! ## The claims, continued -/

/-- C11: the capacity invariant `capacity ≥ length + 1` holds for a freshly
created `Line`; every result of `Line::append`, `Line::insertSubstring` and of
lines 198-209 of `TextDocument::replaceSubstring` satisfies it,
`Line::replaceSubstring` keeps it, and so does
`TextDocument::replaceSubstring` on every line of the document. On a valid
line `append` and `insertSubstring` (for `0 ≤ pos ≤ length`) do have a result,
and so have the two replace operations when their copies stay inside the
block. -/
theorem capacity_invariant_preserved :
    Line.new.CapacityOk ∧
      (∀ (l l2 : Line) (s : List Char), l.append s = some l2 → l2.CapacityOk) ∧
      (∀ (l l2 : Line) (pos : Int) (s : List Char),
        l.insertSubstring pos s = some l2 → l2.CapacityOk) ∧
      (∀ (l l2 : Line) (pos : Int) (r : List Char),
        l.CapacityOk → l.replaceSubstring pos r = some l2 → l2.CapacityOk) ∧
      (∀ (d d2 : TextDocument) (lineNum pos : Int) (r : List Char) (st : Status),
        (∀ l ∈ d.lines, l.CapacityOk) → d.replaceSubstring lineNum pos r = some (d2, st) →
        ∀ l ∈ d2.lines, l.CapacityOk) ∧
      (∀ (l : Line) (c s : List Char), l.Stores c → NUL ∉ s →
        ∃ l2, l.append s = some l2 ∧ l2.CapacityOk) ∧
      (∀ (l : Line) (c s : List Char) (pos : Int), l.Stores c → NUL ∉ s → 0 ≤ pos →
        pos ≤ c.length → ∃ l2, l.insertSubstring pos s = some l2 ∧ l2.CapacityOk) ∧
      (∀ (l : Line) (c r : List Char) (pos : Int), l.Stores c → NUL ∉ r → 0 ≤ pos →
        pos ≤ c.length → pos + r.length ≤ l.capacity →
        ∃ l2, l.replaceSubstring pos r = some l2 ∧ l2.CapacityOk) ∧
      (∀ (l : Line) (c r : List Char) (pos : Int), l.Stores c → NUL ∉ r → 0 ≤ pos →
        pos + r.length ≤ c.length →
        (c.length : Int) + (c.length - (pos + r.length) + 1) ≤ l.capacity →
        ∃ l2, TextDocument.replaceInLine l pos r = some l2 ∧ l2.CapacityOk) := by
  refine ⟨by decide, ?_, ?_, ?_, ?_, ?_, ?_, ?_, ?_⟩
  · intro l l2 s h
    exact Line.append_capacityOk h
  · intro l l2 pos s h
    exact Line.insertSubstring_capacityOk h
  · intro l l2 pos r hl h
    obtain ⟨h1, h2⟩ := Line.replaceSubstring_fields h
    unfold Line.CapacityOk at hl ⊢
    rw [h1, h2]
    exact hl
  · intro d d2 lineNum pos r st hd h l hl
    rcases TextDocument.replaceSubstring_lines h with rfl | ⟨i, l0, l2, -, hr, rfl⟩
    · exact hd l hl
    · rcases List.mem_or_eq_of_mem_set hl with h1 | h1
      · exact hd l h1
      · rw [h1]
        exact TextDocument.replaceInLine_capacityOk hr
  · intro l c s hst hs
    obtain ⟨l2, h, -⟩ := Line.append_stores hst s hs
    exact ⟨l2, h, Line.append_capacityOk h⟩
  · intro l c s pos hst hs h0 h1
    obtain ⟨p, rfl⟩ : ∃ p : Nat, pos = (p : Int) := ⟨pos.toNat, by omega⟩
    obtain ⟨l2, h, -⟩ := Line.insertSubstring_stores hst s hs p (by omega)
    exact ⟨l2, h, Line.insertSubstring_capacityOk h⟩
  · intro l c r pos hst hr h0 h1 hfit
    obtain ⟨p, rfl⟩ : ∃ p : Nat, pos = (p : Int) := ⟨pos.toNat, by omega⟩
    obtain ⟨l2, h, -, hl, hc, -⟩ := Line.replaceSubstring_stores hst r hr p (by omega) hfit
    refine ⟨l2, h, ?_⟩
    have := hst.length_lt
    unfold Line.CapacityOk
    rw [hl, hc, hst.2.1]
    omega
  · intro l c r pos hst hr h0 hle hsrc
    obtain ⟨p, rfl⟩ : ∃ p : Nat, pos = (p : Int) := ⟨pos.toNat, by omega⟩
    obtain ⟨l2, h, -, -⟩ := TextDocument.replaceInLine_stores hst r hr p (by omega) hsrc
    exact ⟨l2, h, TextDocument.replaceInLine_capacityOk h⟩

theorem capacity_invariant_preserved_witness :
    Line.new.CapacityOk ∧
      (∃ l2, (Line.holding "abcdefgh".toList 1).append "ij".toList = some l2 ∧ l2.CapacityOk) ∧
      ∃ l2, (Line.holding "ab".toList 7).insertSubstring 1 "xy".toList = some l2 ∧
        l2.CapacityOk :=
  ⟨capacity_invariant_preserved.1,
    capacity_invariant_preserved.2.2.2.2.2.1 (Line.holding "abcdefgh".toList 1)
      "abcdefgh".toList "ij".toList (by decide) (by decide),
    capacity_invariant_preserved.2.2.2.2.2.2.1 (Line.holding "ab".toList 7)
      "ab".toList "xy".toList 1 (by decide) (by decide) (by decide) (by decide)⟩

/-- C12, as the code behaves: from an empty document `appendText("a")` creates
the first line and leaves `lineCount` at 0, so the chain has one line more
than `lineCount` says; after `appendText(a); startNewLine(); appendText(b)`
there are two lines and `lineCount` is 1. `startNewLine` on an empty document
does count the line it creates. The claim asks for `lineCount` equal to the
number of lines after every sequence of operations. -/
theorem lineCount_misses_first_line :
    (TextDocument.new.appendText "a".toList).map (fun d => (d.lines.length, d.lineCount))
        = some (1, 0) ∧
      (TextDocument.twoLines "a".toList "b".toList).map
          (fun d => (d.lines.length, d.lineCount)) = some (2, 1) ∧
      (TextDocument.new.startNewLine.lines.length, TextDocument.new.startNewLine.lineCount)
        = (1, 1) := by
  decide

/-- C13, counterexample: `loadFromFile` on a path that cannot be opened, called
on the document holding the line `"a"`, leaves that line in place. -/
theorem load_failure_keeps_lines :
    (TextDocument.single "a".toList 8).loadFromFile none
        = some (TextDocument.single "a".toList 8, Status.openError) ∧
      (TextDocument.single "a".toList 8).lines ≠ [] := by
  decide

/-- C13, amended: when the file cannot be opened for reading, `loadFromFile`
reports the error and leaves the document as it was (the test of the stream
comes before `clear()`). -/
theorem load_failure_unchanged (d : TextDocument) :
    d.loadFromFile none = some (d, Status.openError) :=
  rfl

/-- C14, as the code behaves: on a document whose lines are terminated strings,
one of them non-empty, `searchSubstring` with the empty pattern does not
terminate: whatever the fuel, the loop is still running when it is used up
(`strstr` returns `text + pos`, the match is printed and `pos` advances by 0).
The claim asks for termination for every pattern, the empty one included. -/
theorem search_empty_pattern_never_finishes (d : TextDocument)
    (contents : List (List Char)) (fuel : Nat) (nullDiff : Int → Int)
    (hd : d.lines.map Line.content = contents.map some)
    (hne : ∃ c ∈ contents, c ≠ []) :
    d.searchSubstring fuel nullDiff [] = .unfinished :=
  searchFrom_empty_pattern fuel nullDiff d.lines contents 0 hd hne

theorem search_empty_pattern_never_finishes_witness :
    (TextDocument.single "a".toList 8).searchSubstring 1000 (fun _ => -1) [] = .unfinished :=
  search_empty_pattern_never_finishes (TextDocument.single "a".toList 8)
    ["a".toList] 1000 (fun _ => -1) (by decide) ⟨"a".toList, by decide, by decide⟩

/-- C15, as the code behaves: with a negative `lineNum` the walk does not move
(`currentLine < lineNum` is false at once), `current` is the first line, and
`insertSubstring` and `replaceSubstring` do to line 0 what they do for
`lineNum = 0`; on a non-empty document that is never the invalid-line branch.
The claim asks for the invalid-line branch and an unchanged document. -/
theorem negative_line_index_hits_first_line (d : TextDocument) (lineNum pos : Int)
    (s : List Char) (h : lineNum < 0) :
    d.insertSubstring lineNum pos s = d.insertSubstring 0 pos s ∧
      d.replaceSubstring lineNum pos s = d.replaceSubstring 0 pos s ∧
      (d.lines ≠ [] →
        d.insertSubstring lineNum pos s ≠ some (d, Status.invalidLineNumber) ∧
        d.replaceSubstring lineNum pos s ≠ some (d, Status.invalidLineNumber)) := by
  have hw := walk_negative d.lines lineNum h
  have h1 : d.insertSubstring lineNum pos s = d.insertSubstring 0 pos s := by
    unfold TextDocument.insertSubstring
    rw [hw]
  have h2 : d.replaceSubstring lineNum pos s = d.replaceSubstring 0 pos s := by
    unfold TextDocument.replaceSubstring
    rw [hw]
  refine ⟨h1, h2, fun hne => ⟨?_, ?_⟩⟩
  · rw [h1]
    exact TextDocument.insertSubstring_not_invalid d pos s hne
  · rw [h2]
    exact TextDocument.replaceSubstring_not_invalid d pos s hne

theorem negative_line_index_hits_first_line_witness :
    ((TextDocument.single "ab".toList 7).insertSubstring (-1) 0 "x".toList).map
        (fun r => (r.1.lines.map Line.content, r.2)) = some ([some "xab".toList], Status.ok) ∧
      ((TextDocument.single "ab".toList 7).replaceSubstring (-1) 0 "x".toList).map
        (fun r => (r.1.lines.map Line.content, r.2)) = some ([some "x".toList], Status.ok) := by
  obtain ⟨h1, h2, -⟩ := negative_line_index_hits_first_line
    (TextDocument.single "ab".toList 7) (-1) 0 "x".toList (by decide)
  rw [h1, h2]
  decide

/-- Growth on valid lines. On a valid line holding `c`, `ensureCapacity(minCapacity)` succeeds,
sets `capacity` to exactly `2 * minCapacity` when `minCapacity > capacity` and
leaves it as it is otherwise, and keeps the content and `length`; so the
capacity never decreases. `append(s)` leaves the capacity at exactly
`2 * (length + length(s) + 1)` when `length + length(s) + 1 > capacity`, and
unchanged otherwise. -/
theorem ensureCapacity_doubles (l : Line) (c : List Char) (minCapacity : Int)
    (h : l.Stores c) :
    ∃ l1, l.ensureCapacity minCapacity = some l1 ∧
      (minCapacity > l.capacity → l1.capacity = 2 * minCapacity) ∧
      (¬ minCapacity > l.capacity → l1.capacity = l.capacity) ∧
      l1.content = some c ∧ l1.length = l.length ∧ l.capacity ≤ l1.capacity ∧
      ∀ s : List Char, NUL ∉ s → ∃ l2, l.append s = some l2 ∧
        (l.length + (s.length : Int) + 1 > l.capacity →
          l2.capacity = 2 * (l.length + (s.length : Int) + 1)) ∧
        (¬ l.length + (s.length : Int) + 1 > l.capacity → l2.capacity = l.capacity) := by
  obtain ⟨l1, he, hst, -, hmono⟩ := Line.ensureCapacity_stores h minCapacity
  have hcap := Line.ensureCapacity_capacity he
  refine ⟨l1, he, ?_, ?_, hst.1, ?_, hmono, ?_⟩
  · intro hgt
    rw [hcap, if_pos hgt]
  · intro hle
    rw [hcap, if_neg hle]
  · rw [hst.2.1, h.2.1]
  · intro s hs
    obtain ⟨l2, ha, -⟩ := Line.append_stores h s hs
    have hc2 := Line.append_capacity ha
    refine ⟨l2, ha, ?_, ?_⟩
    · intro hgt
      rw [hc2, if_pos hgt]
    · intro hle
      rw [hc2, if_neg hle]

theorem ensureCapacity_doubles_witness :
    ∃ l1, (Line.holding "ab".toList 7).ensureCapacity 11 = some l1 ∧ l1.capacity = 22 ∧
      l1.content = some "ab".toList ∧ l1.length = 2 := by
  obtain ⟨l1, h1, h2, -, h4, h5, -⟩ := ensureCapacity_doubles (Line.holding "ab".toList 7)
    "ab".toList 11 (by decide)
  exact ⟨l1, h1, h2 (by decide), h4, h5.trans (by decide)⟩

/-- C17, as the code behaves: on a valid line holding `c`, for a replacement
that ends before the old end (`pos + length(r) < length(c)`),
`Line::replaceSubstring(pos, r)` leaves the content `take pos c ++ r`, of
`pos + length(r)` characters, and the length field at `length(c)`: the length
invariant no longer holds. `TextDocument::replaceSubstring` does assign
`length`; `Line::replaceSubstring` never does. The claim asks for the
invariant to be preserved for every `0 ≤ pos ≤ length`. -/
theorem line_replace_leaves_stale_length (l : Line) (c r : List Char) (pos : Int)
    (h : l.Stores c) (hr : NUL ∉ r) (h0 : 0 ≤ pos) (hlt : pos + r.length < c.length) :
    l.LengthOk ∧
      ∃ l2, l.replaceSubstring pos r = some l2 ∧
        l2.content = some (c.take pos.toNat ++ r) ∧
        l2.length = c.length ∧ ¬ l2.LengthOk := by
  obtain ⟨p, rfl⟩ : ∃ p : Nat, pos = (p : Int) := ⟨pos.toNat, by omega⟩
  have hlen := h.length_lt
  obtain ⟨l2, hrep, hcont, hl2, -, -⟩ :=
    Line.replaceSubstring_stores h r hr p (by omega) (by omega)
  have htake : r.take (c.length - p) = r := List.take_of_length_le (by omega)
  rw [htake] at hcont
  simp only [Int.toNat_ofNat]
  refine ⟨⟨c, h.1, h.2.1⟩, l2, hrep, hcont, by rw [hl2]; exact h.2.1, ?_⟩
  rintro ⟨c2, hc2, hlen2⟩
  have hc2eq : c2 = c.take p ++ r := by
    have : some c2 = some (c.take p ++ r) := hc2.symm.trans hcont
    exact Option.some.inj this
  rw [hl2, h.2.1, hc2eq] at hlen2
  simp only [List.length_append, List.length_take] at hlen2
  omega

theorem line_replace_leaves_stale_length_witness :
    ∃ l2, (Line.holding "abc".toList 6).replaceSubstring 0 "x".toList = some l2 ∧
      l2.content = some "x".toList ∧ l2.length = 3 ∧ ¬ l2.LengthOk := by
  obtain ⟨-, l2, h1, h2, h3, h4⟩ := line_replace_leaves_stale_length
    (Line.holding "abc".toList 6) "abc".toList "x".toList 0
    (by decide) (by decide) (by decide) (by decide)
  exact ⟨l2, h1, h2.trans (by decide), h3.trans (by decide), h4⟩

/-- C18, as the code behaves: on a valid line holding `c` (so `capacity` is the
size of the block and is at least `length + 1`), with `0 ≤ pos ≤ length`, an
access leaves the block or a byte count is negative, and the call has no
defined result, in three cases. `Line::replaceSubstring` copies `length(r)`
bytes to `text + pos` without growing the block: undefined for
`capacity < pos + length(r)`. The `memmove` of `TextDocument::replaceSubstring`
reads `length − pos − length(r) + 1` bytes from `text + length`: undefined for
`pos + length(r) ≤ length` and `capacity < 2·length − pos − length(r) + 1`,
and its count is negative for `pos + length(r) > length + 1`. The claim asks
for every access inside the block and every count non-negative. -/
theorem replace_leaves_the_block (l : Line) (c r : List Char) (pos : Int)
    (h : l.Stores c) (h0 : 0 ≤ pos) (h1 : pos ≤ c.length) :
    l.CapacityOk ∧
      (l.capacity < pos + r.length → l.replaceSubstring pos r = none) ∧
      (pos + r.length ≤ c.length →
        l.capacity < (c.length : Int) + (c.length - (pos + r.length) + 1) →
        TextDocument.replaceInLine l pos r = none) ∧
      ((c.length : Int) + 1 < pos + r.length → TextDocument.replaceInLine l pos r = none) := by
  obtain ⟨p, rfl⟩ : ∃ p : Nat, pos = (p : Int) := ⟨pos.toNat, by omega⟩
  have hlen := h.length_lt
  refine ⟨?_, ?_, ?_, ?_⟩
  · unfold Line.CapacityOk
    rw [h.2.1]
    omega
  · intro hover
    exact Line.replaceSubstring_overflow h r _ hover
  · intro hle hcap
    exact TextDocument.replaceInLine_overread h r p (by omega) hcap
  · intro hlong
    exact TextDocument.replaceInLine_negative_count h r p (by omega) (by omega)

theorem replace_leaves_the_block_witness :
    (Line.holding "abcdefghi".toList 0).replaceSubstring 9 "xy".toList = none ∧
      TextDocument.replaceInLine (Line.holding "abcdefghi".toList 0) 0 "x".toList = none ∧
      TextDocument.replaceInLine (Line.holding "ab".toList 7) 0 "abcd".toList = none :=
  ⟨(replace_leaves_the_block (Line.holding "abcdefghi".toList 0) "abcdefghi".toList
      "xy".toList 9 (by decide) (by decide) (by decide)).2.1 (by decide),
    (replace_leaves_the_block (Line.holding "abcdefghi".toList 0) "abcdefghi".toList
      "x".toList 0 (by decide) (by decide) (by decide)).2.2.1 (by decide) (by decide),
    (replace_leaves_the_block (Line.holding "ab".toList 7) "ab".toList
      "abcd".toList 0 (by decide) (by decide) (by decide)).2.2.2 (by decide)⟩

/-- Soundness and coverage on terminated lines. For a document whose lines hold
the strings `contents` and a non-empty pattern, `searchSubstring` runs to
completion and, for every line
`j` holding `c`: each offset reported for line `j` is an occurrence of the
pattern in `c`; each occurrence of the pattern in `c` is reported or lies
strictly inside a reported match; and a line that contains the pattern has at
least one reported match. The `int` value of `nullptr - text` is assumed
outside `[0, textLength)`. -/
theorem search_reports_sound_and_covering (d : TextDocument)
    (contents : List (List Char)) (pat : List Char) (fuel : Nat) (nullDiff : Int → Int)
    (hpat : pat ≠ [])
    (hd : d.lines.map Line.content = contents.map some)
    (hfuel : ∀ c ∈ contents, c.length < fuel)
    (hnull : ∀ (j : Nat) (c : List Char), contents[j]? = some c →
      ¬ (0 ≤ nullDiff j ∧ nullDiff j < c.length)) :
    ∃ ms, d.searchSubstring fuel nullDiff pat = .found ms ∧
      ∀ (j : Nat) (c : List Char), contents[j]? = some c →
        (∀ m : Int, ((j : Int), m) ∈ ms → 0 ≤ m ∧ OccursAt c pat m.toNat) ∧
        (∀ o : Nat, OccursAt c pat o →
          ((j : Int), (o : Int)) ∈ ms ∨
          ∃ m : Nat, ((j : Int), (m : Int)) ∈ ms ∧ m < o ∧ o < m + pat.length) ∧
        ((∃ o : Nat, OccursAt c pat o) → ∃ m : Int, ((j : Int), m) ∈ ms) := by
  have hmain : d.searchSubstring fuel nullDiff pat = .found (expectedFrom pat contents 0) :=
    searchFrom_expected fuel nullDiff pat hpat d.lines contents 0 hd hfuel
      (fun j c hj => by simpa using hnull j c hj)
  refine ⟨_, hmain, ?_⟩
  intro j c hj
  have hmem : ∀ (k : Nat), ((j : Int), (k : Int)) ∈ expectedFrom pat contents 0 ↔
      k ∈ nonOverlapping c pat := by
    intro k
    rw [mem_expectedFrom]
    constructor
    · rintro ⟨j1, c1, hj1, ha, k1, hk1, hb⟩
      have hjj : j1 = j := by omega
      subst hjj
      rw [hj] at hj1
      have hcc : c = c1 := Option.some.inj hj1
      subst hcc
      have hkk : k = k1 := by omega
      subst hkk
      exact hk1
    · intro hk
      exact ⟨j, c, hj, by simp, k, hk, rfl⟩
  have hcover : ∀ o : Nat, OccursAt c pat o →
      ((j : Int), (o : Int)) ∈ expectedFrom pat contents 0 ∨
      ∃ m : Nat, ((j : Int), (m : Int)) ∈ expectedFrom pat contents 0 ∧
        m < o ∧ o < m + pat.length := by
    intro o hocc
    rcases scanFrom_covers hpat (c.length + 1) 0 (by omega) o (Nat.zero_le _) hocc with
      h | ⟨m, hm, h1, h2⟩
    · exact Or.inl ((hmem o).2 h)
    · exact Or.inr ⟨m, (hmem m).2 hm, h1, h2⟩
  refine ⟨?_, hcover, ?_⟩
  · intro m hm
    obtain ⟨j1, c1, hj1, ha, k, hk, hb⟩ := (mem_expectedFrom contents 0 (j : Int) m).1 hm
    have hjj : j1 = j := by omega
    subst hjj
    rw [hj] at hj1
    have hcc : c = c1 := Option.some.inj hj1
    subst hcc
    subst hb
    exact ⟨by omega, by simpa using (scanFrom_occurs _ _ _ hk).2⟩
  · rintro ⟨o, hocc⟩
    rcases hcover o hocc with h | ⟨m, hm, -, -⟩
    · exact ⟨_, h⟩
    · exact ⟨_, hm⟩

theorem search_reports_sound_and_covering_witness :
    ∃ ms, (TextDocument.single "ababa".toList 4).searchSubstring 6 (fun _ => -1) "aba".toList
        = .found ms ∧
      ms = [(0, 0)] ∧
      (((0 : Int), ((2 : Nat) : Int)) ∈ ms ∨
        ∃ m : Nat, ((0 : Int), (m : Int)) ∈ ms ∧ m < 2 ∧ 2 < m + "aba".toList.length) := by
  obtain ⟨ms, h1, h2⟩ := search_reports_sound_and_covering
    (TextDocument.single "ababa".toList 4) ["ababa".toList] "aba".toList 6 (fun _ => -1)
    (by decide) (by decide) (by decide)
    (fun _ _ _ h => absurd h.1 (show ¬ (0 : Int) ≤ -1 by decide))
  have hms : ms = [(0, 0)] := by
    have hev : (TextDocument.single "ababa".toList 4).searchSubstring 6 (fun _ => -1)
        "aba".toList = .found [(0, 0)] := by decide
    rw [hev] at h1
    exact (SearchResult.found.inj h1).symm
  exact ⟨ms, h1, hms, (h2 0 "ababa".toList (by decide)).2.1 2 (by decide)⟩

/-- C20, as the code behaves: when the first line of the file has 64 or more
characters, `getline` stores 63 of them and sets `failbit`, the loop condition
is false, and `loadFromFile` returns with the cleared, empty document:
neither a truncated copy of that line nor any of the lines after it is
loaded. The claim asks for the line truncated and the following lines loaded. -/
theorem load_stops_at_long_line (d : TextDocument) (c rest : List Char)
    (hlen : LINE_LENGTH ≤ c.length) (hnl : '\n' ∉ c) :
    d.loadFromFile (some (c ++ '\n' :: rest))
      = some ({ lines := [], lineCount := 0 }, Status.ok) := by
  have hrun := loadLoop_long_first_line (c ++ '\n' :: rest).length c ('\n' :: rest)
    d.clear hlen hnl
  unfold TextDocument.loadFromFile
  simp only [hrun]
  rfl

theorem load_stops_at_long_line_witness :
    TextDocument.new.loadFromFile
        (some (List.replicate 64 'a' ++ '\n' :: "b\n".toList))
      = some ({ lines := [], lineCount := 0 }, Status.ok) :=
  load_stops_at_long_line TextDocument.new (List.replicate 64 'a') "b\n".toList
    (by decide) (by decide)

/-! ## The search past a line that was never written -/

/-- When the lines before `l` are terminated strings and `text` of `l` is not
one (as `Line()` leaves it), the search of a non-empty pattern reaches
`strlen(l.text)` and is undefined. -/
theorem searchFrom_unterminated (fuel : Nat) (nd : Int → Int) (pat : List Char)
    (hpat : pat ≠ []) (l : Line) (post : List Line) (hl : cstr l.text = none) :
    ∀ (pre : List Line) (contents : List (List Char)) (lineNum : Int),
      pre.map Line.content = contents.map some →
      (∀ c ∈ contents, c.length < fuel) →
      (∀ (j : Nat) (c : List Char), contents[j]? = some c →
        ¬ (0 ≤ nd (lineNum + j) ∧ nd (lineNum + j) < c.length)) →
      searchFrom fuel nd pat (pre ++ l :: post) lineNum = .undefined := by
  intro pre
  induction pre with
  | nil =>
    intro contents lineNum _ _ _
    simp only [List.nil_append]
    unfold searchFrom
    simp only [hl]
  | cons l0 rest ih =>
    intro contents lineNum hc hfuel hnd
    cases contents with
    | nil => simp at hc
    | cons c cs =>
      simp only [List.map_cons, List.cons.injEq] at hc
      obtain ⟨hl0, hrest⟩ := hc
      have hlc : cstr l0.text = some c := hl0
      have hcf : c.length < fuel := hfuel c (List.mem_cons_self _ _)
      have hnd0 : ¬ (0 ≤ nd lineNum ∧ nd lineNum < c.length) := by
        have := hnd 0 c (by simp)
        simpa using this
      have hloop := searchLoop_scan (nd lineNum) c pat lineNum hpat hnd0 fuel (c.length + 1) 0
        (by omega) (by omega) (by omega)
      have htail := ih cs (lineNum + 1) hrest
        (fun c1 h1 => hfuel c1 (List.mem_cons_of_mem _ h1))
        (fun j c1 h1 => by
          have := hnd (j + 1) c1 (by simpa using h1)
          have e : lineNum + ((j + 1 : Nat) : Int) = lineNum + 1 + (j : Int) := by
            push_cast; ring
          rw [e] at this
          exact this)
      rw [List.cons_append]
      unfold searchFrom
      simp only [hlc]
      rw [show ((0 : Int)) = ((0 : Nat) : Int) from rfl, hloop, htail]

theorem Line.new_ensureCapacity_undefined (minCapacity : Int)
    (h : minCapacity > INITIAL_CAPACITY) : Line.new.ensureCapacity minCapacity = none := by
  unfold Line.ensureCapacity
  have hgt : minCapacity > Line.new.capacity := h
  have hn : cstr Line.new.text = none := by decide
  simp only [hgt, if_true, hn]

/-! ## The claims on searching and on growth, as the code behaves -/

/-- C3, as the code behaves: on a document that has a line whose block was
never written, which is every document after `startNewLine` or
`loadFromFile`, the search of a non-empty pattern has no defined result: after
the lines before it, `strlen(current->text)` reads the unwritten block. The
claim asks for the leftmost non-overlapping matches on every document. On a
document of terminated lines alone the value of `nullptr - text`, which `pos`
receives when `strstr` finds nothing, decides the outcome: with the value 2
the search of `"x"` in `"abc"` prints the position 2, where the scan has no match. -/
theorem search_undefined_past_unwritten_line (d : TextDocument) (pre post : List Line)
    (l : Line) (contents : List (List Char)) (pat : List Char) (fuel : Nat)
    (nullDiff : Int → Int) (hpat : pat ≠ [])
    (hlines : d.lines = pre ++ l :: post)
    (hpre : pre.map Line.content = contents.map some)
    (hl : l.content = none)
    (hfuel : ∀ c ∈ contents, c.length < fuel)
    (hnull : ∀ (j : Nat) (c : List Char), contents[j]? = some c →
      ¬ (0 ≤ nullDiff j ∧ nullDiff j < c.length)) :
    d.searchSubstring fuel nullDiff pat = .undefined ∧
      (TextDocument.single "abc".toList 6).searchSubstring 10 (fun _ => 2) "x".toList
        = .found [(0, 2)] ∧
      expectedFrom "x".toList ["abc".toList] 0 = [] := by
  refine ⟨?_, by decide, by decide⟩
  unfold TextDocument.searchSubstring
  rw [hlines]
  exact searchFrom_unterminated fuel nullDiff pat hpat l post hl pre contents 0 hpre hfuel
    (fun j c hj => by simpa using hnull j c hj)

theorem search_undefined_past_unwritten_line_witness :
    (TextDocument.new.appendText "ab".toList).map TextDocument.startNewLine
        = some { lines := [Line.holding "ab".toList 7, Line.new], lineCount := 1 } ∧
      (TextDocument.searchSubstring 3 (fun _ => -1)
        { lines := [Line.holding "ab".toList 7, Line.new], lineCount := 1 } "a".toList)
        = .undefined :=
  ⟨by decide,
    (search_undefined_past_unwritten_line
      { lines := [Line.holding "ab".toList 7, Line.new], lineCount := 1 }
      [Line.holding "ab".toList 7] [] Line.new ["ab".toList] "a".toList 3 (fun _ => -1)
      (by decide) (by decide) (by decide) (by decide) (by decide)
      (fun _ _ _ h => absurd h.1 (show ¬ (0 : Int) ≤ -1 by decide))).1⟩

/-- C16, as the code behaves: on a freshly created `Line`,
`ensureCapacity(minCapacity)` with `minCapacity > 10` has no defined result:
it allocates the new block and copies with `strcpy(newText, text)` out of the
block that `Line()` never wrote. The claim asks, for every line, for capacity
`2 * minCapacity` with content and length unchanged. -/
theorem ensureCapacity_on_fresh_line_undefined (minCapacity : Int)
    (h : minCapacity > INITIAL_CAPACITY) : Line.new.ensureCapacity minCapacity = none :=
  Line.new_ensureCapacity_undefined minCapacity h

theorem ensureCapacity_on_fresh_line_undefined_witness :
    Line.new.ensureCapacity 11 = none :=
  ensureCapacity_on_fresh_line_undefined 11 (by decide)

/-- C19, as the code behaves: after `loadFromFile` of the file `"aa"`, newline,
the document is the line `"aa"` and a line that was never written, and the
search of `"a"` has no defined result, so the line `"aa"`, which contains the
pattern, yields no reported match; the same after `appendText("aa");
startNewLine()`. On the single terminated line `"abc"`, when `nullptr - text`
has the `int` value 2, the search of `"x"` reports the offset 2, where the
pattern does not occur. The claim asks for genuine occurrences only and for a
match on every line that contains the pattern. -/
theorem search_unsound_or_undefined :
    (TextDocument.new.loadFromFile (some "aa\n".toList)).map
        (fun r => (r.1.lines.map Line.content,
          r.1.searchSubstring 10 (fun _ => -1) "a".toList))
        = some ([some "aa".toList, none], SearchResult.undefined) ∧
      OccursAt "aa".toList "a".toList 0 ∧
      ((TextDocument.new.appendText "aa".toList).map TextDocument.startNewLine).map
        (fun d => d.searchSubstring 10 (fun _ => -1) "a".toList)
        = some SearchResult.undefined ∧
      (TextDocument.single "abc".toList 6).searchSubstring 10 (fun _ => 2) "x".toList
        = .found [(0, 2)] ∧
      ¬ OccursAt "abc".toList "x".toList 2 := by
  decide

end Editor
